import Mathlib

/-!
# SAT encodings of graph k-coloring and of the pigeonhole principle

A shallow embedding of `hw1/coloring.h` (classes `Graph` and `Coloring`) and of
`php/php.cc` (`main`).

Conventions of the embedding:

* a C++ `int` is a Lean `Int`.  The arithmetic of the encoders is the unbounded
  one.  The two id computations are given a second time in 32-bit arithmetic
  (`int32`, `Coloring.getNodeHasColorVarInt32`, `Php.pigeonVarInt32`); the two
  readings are proved equal while `nodeCount*k`, resp. `n*(n+1)`, is at most
  `2^31 - 1`, and they part at `nodeCount = k = 46341`;
* a member function that can stop at an `assert`, throw, or index a vector
  outside its storage returns `Except Fault _`;
* a member function that updates `*this` returns the updated object;
* `for (int i = lo; i < hi; i++)` is a fold over `forRange lo hi`;
* `coloring.h` lacks the `;` after four local declarations (lines 92, 93, 108,
  109); the embedding reads them with the `;` in place;
* the MiniSat solver is an external library: it is modelled by the interface
  the encoders use (declare a variable, add a clause, solve).
-/

namespace Ministat

/-- The ways a call can stop without producing its result. -/
inductive Fault where
  /-- An `assert` fired. -/
  | assertion
  /-- The `resize` of a vector was asked for more than `max_size` elements. -/
  | lengthError
  /-- A vector was indexed outside its storage. -/
  | outOfBounds
  deriving DecidableEq

/-- The values taken, in order, by `i` in `for (int i = lo; i < hi; i++)`. -/
def forRange (lo hi : Int) : List Int :=
  (List.range (hi - lo).toNat).map (fun (i : Nat) => lo + (i : Int))

/-! ## The solver interface -/

namespace Minisat

/-- A literal: the variable and the sign given to `mkLit` (`true` negates). -/
structure Lit where
  x : Int
  sign : Bool
  deriving DecidableEq

/-- The constructor `Minisat::mkLit(var, sign)`. -/
def mkLit (v : Int) (sign : Bool) : Lit := ⟨v, sign⟩

/-- Modelled from the spec: the external SAT solver (section 6), reduced to what
the encoders use of it: how many variables were declared, and the clauses passed
to `addClause`, in call order. -/
structure Solver where
  nVars : Nat
  clauses : List (List Lit)
  deriving DecidableEq

/-- Modelled from the spec: a solver as its default constructor leaves it. -/
def Solver.empty : Solver := ⟨0, []⟩

/-- Modelled from the spec: `newVar()` allocates the next id, counting from 0. -/
def Solver.newVar (s : Solver) : Int × Solver :=
  ((s.nVars : Int), { s with nVars := s.nVars + 1 })

/-- Modelled from the spec: `addClause(literals)` registers one clause. -/
def Solver.addClause (s : Solver) (c : List Lit) : Solver :=
  { s with clauses := s.clauses ++ [c] }

/-- Truth value of a literal under an assignment of the variables. -/
def Lit.holds (a : Int → Bool) (l : Lit) : Bool := a l.x != l.sign

/-- A clause is true when one of its literals is. -/
def clauseHolds (a : Int → Bool) (c : List Lit) : Bool := c.any (Lit.holds a)

/-- An assignment satisfies a clause list when every clause is true. -/
def satisfies (a : Int → Bool) (cs : List (List Lit)) : Bool :=
  cs.all (clauseHolds a)

/-- A clause list is satisfiable when some assignment satisfies it. -/
def Satisfiable (cs : List (List Lit)) : Prop :=
  ∃ a : Int → Bool, satisfies a cs = true

/-- All truth tables for the variables `0 .. n-1`; entry `v` is the value of
variable `v`. -/
def allTables : Nat → List (List Bool)
  | 0 => [[]]
  | n + 1 => (allTables n).flatMap (fun t => [t ++ [false], t ++ [true]])

/-- The assignment given by a truth table (variables outside it are false). -/
def tableValue (t : List Bool) (v : Int) : Bool :=
  decide (0 ≤ v) && t.getD v.toNat false

/-- Modelled from the spec: `solve()` answers whether the clauses added so far
are satisfiable by an assignment of the declared variables. -/
def Solver.solve (s : Solver) : Bool :=
  (allTables s.nVars).any (fun t => satisfies (tableValue t) s.clauses)

end Minisat

open Minisat

/-! ## `class Graph` -/

/-- The data members of `Graph`. -/
structure Graph where
  m_nNumberOfNodes : Int
  m_graph : List (List Int)
  deriving DecidableEq

/-- The call `m_graph.resize(n)` on the adjacency table. -/
def resizeRows (rows : List (List Int)) (n : Nat) : List (List Int) :=
  rows.take n ++ List.replicate (n - rows.length) []

/-- The constructor `Graph(int nNumberOfNodes)`.  A negative count reaches
`resize` as a `size_t` above `max_size`, and `resize` throws. -/
def Graph.new (nNumberOfNodes : Int) : Except Fault Graph :=
  if nNumberOfNodes < 0 then .error .lengthError
  else .ok ⟨nNumberOfNodes, resizeRows [] nNumberOfNodes.toNat⟩

/-- The getter `Graph::getNumberOfNodes`. -/
def Graph.getNumberOfNodes (g : Graph) : Int := g.m_nNumberOfNodes

/-- The getter `Graph::getEdgesForNode`.  In the second assertion `node` is
compared as a `size_t`, so a negative `node` fails it. -/
def Graph.getEdgesForNode (g : Graph) (node : Int) : Except Fault (List Int) :=
  if ¬ node < g.m_nNumberOfNodes then .error .assertion
  else if node < 0 then .error .assertion
  else if h : node.toNat < g.m_graph.length then .ok g.m_graph[node.toNat]
  else .error .assertion

/-- The method `Graph::addEdge`.  Past the two assertions a negative `n1` is
converted to a `size_t`: `resize` then either throws (`n1 < -1`) or empties the
table (`n1 = -1`), after which row `n1` lies outside the storage. -/
def Graph.addEdge (g : Graph) (n1 n2 : Int) : Except Fault Graph :=
  if ¬ (n1 < g.m_nNumberOfNodes ∧ n2 < g.m_nNumberOfNodes) then .error .assertion
  else if ¬ n1 ≤ n2 then .error .assertion
  else if n1 < -1 then .error .lengthError
  else if n1 < 0 then .error .outOfBounds
  else
    let rows :=
      if g.m_graph.length ≤ n1.toNat then resizeRows g.m_graph (n1.toNat + 1)
      else g.m_graph
    .ok { g with m_graph := rows.modify (fun row => row ++ [n2]) n1.toNat }

/-- A graph as client code builds it: the constructor, then `addEdge` for each
listed pair in order. -/
def Graph.build (nNumberOfNodes : Int) (edges : List (Int × Int)) : Except Fault Graph := do
  let g ← Graph.new nNumberOfNodes
  edges.foldlM (fun g e => g.addEdge e.1 e.2) g

/-- The pair `(a, b)` is a stored edge: `b` occurs in the neighbor list of `a`. -/
def Graph.hasEdge (g : Graph) (a b : Int) : Prop :=
  0 ≤ a ∧ b ∈ g.m_graph.getD a.toNat []

/-! ## `class Coloring` -/

/-- The data members of `Coloring`. -/
structure Coloring where
  m_graph : Graph
  m_nNumberOfColors : Int
  m_solver : Solver
  deriving DecidableEq

/-- The constructor `Coloring(g, nNumberOfColors)`: one `newVar()` per color and
node. -/
def Coloring.new (g : Graph) (nNumberOfColors : Int) : Coloring :=
  let nodes := g.getNumberOfNodes
  let solver :=
    (forRange 0 nNumberOfColors).foldl
      (fun s _ => (forRange 0 nodes).foldl (fun s _ => s.newVar.2) s)
      Solver.empty
  ⟨g, nNumberOfColors, solver⟩

/-- The method `Coloring::getNodeHasColorVar`, its arithmetic read over the unbounded
integers; `Coloring.getNodeHasColorVarInt32` reads it in 32-bit `int`. -/
def Coloring.getNodeHasColorVar (self : Coloring) (node color : Int) : Except Fault Int :=
  if ¬ (node < self.m_graph.getNumberOfNodes ∧ color < self.m_nNumberOfColors) then
    .error .assertion
  else .ok (color * self.m_graph.getNumberOfNodes + node)

/-- The method `Coloring::addOneColorConstraints`. -/
def Coloring.addOneColorConstraints (self : Coloring) (node : Int) : Except Fault Coloring := do
  if ¬ node < self.m_graph.getNumberOfNodes then throw Fault.assertion
  let clause ← (forRange 0 self.m_nNumberOfColors).foldlM
    (fun clause c => do
      let v ← self.getNodeHasColorVar node c
      pure (clause ++ [mkLit v false]))
    []
  let solver := self.m_solver.addClause clause
  let solver ← (forRange 0 (self.m_nNumberOfColors - 1)).foldlM
    (fun s c => (forRange (c + 1) self.m_nNumberOfColors).foldlM
      (fun s k => do
        let node_is_not_c := mkLit (← self.getNodeHasColorVar node c) true
        let node_is_not_k := mkLit (← self.getNodeHasColorVar node k) true
        pure (s.addClause [node_is_not_c, node_is_not_k]))
      s)
    solver
  pure { self with m_solver := solver }

/-- The method `Coloring::addEdgeColoringConstraints`. -/
def Coloring.addEdgeColoringConstraints (self : Coloring) (n1 n2 : Int) :
    Except Fault Coloring := do
  if ¬ (n1 < self.m_graph.getNumberOfNodes ∧ n2 < self.m_graph.getNumberOfNodes) then
    throw Fault.assertion
  if ¬ n1 ≤ n2 then throw Fault.assertion
  let solver ← (forRange 0 (self.m_nNumberOfColors - 1)).foldlM
    (fun s c => do
      let n1_is_not_c := mkLit (← self.getNodeHasColorVar n1 c) true
      let n2_is_not_c := mkLit (← self.getNodeHasColorVar n2 c) true
      pure (s.addClause [n1_is_not_c, n2_is_not_c]))
    self.m_solver
  pure { self with m_solver := solver }

/-- The loop of `Coloring::isColorable` (and of `givemeAllColoring`) that
assembles the clauses: per node, the one-color constraints, then the edge
constraints for each stored neighbor. -/
def Coloring.addAllConstraints (self : Coloring) : Except Fault Coloring :=
  (forRange 0 self.m_graph.getNumberOfNodes).foldlM
    (fun self n => do
      let self ← self.addOneColorConstraints n
      let edges ← self.m_graph.getEdgesForNode n
      edges.foldlM (fun self adjcent => self.addEdgeColoringConstraints n adjcent) self)
    self

/-- The method `Coloring::isColorable`: the verdict of `solve()`, and the object
as the call leaves it. -/
def Coloring.isColorable (self : Coloring) : Except Fault (Bool × Coloring) := do
  let self ← self.addAllConstraints
  let bResult := self.m_solver.solve
  pure (bResult, self)

/-! ## `php.cc` -/

namespace Php

/-- What a run of `main` leaves behind: the exit status, the solver (none when
the run ended before it was constructed) and the verdict line printed. -/
structure Run where
  status : Int
  solver : Option Solver
  printed : Option String
  deriving DecidableEq

/-- The variable `n*i + j`: pigeon `i` has a place in hole `j`.  The arithmetic is
read over the unbounded integers; `Php.pigeonVarInt32` reads it in 32-bit `int`. -/
def pigeonVar (n i j : Int) : Int := n * i + j

/-- The first loop nest of `main`: one `newVar()` per pigeon and hole. -/
def declareVars (n : Int) (s : Solver) : Solver :=
  (forRange 0 (n + 1)).foldl
    (fun s _ => (forRange 0 n).foldl (fun s _ => s.newVar.2) s) s

/-- The second loop nest of `main`: a pigeon has to be placed in some hole. -/
def addPigeonClauses (n : Int) (s : Solver) : Solver :=
  (forRange 0 (n + 1)).foldl
    (fun s i =>
      let clause := (forRange 0 n).foldl
        (fun clause j => clause ++ [mkLit (pigeonVar n i j) false]) []
      s.addClause clause)
    s

/-- The third loop nest of `main`: only one pigeon is placed in a given hole. -/
def addHoleClauses (n : Int) (s : Solver) : Solver :=
  (forRange 0 n).foldl
    (fun s j => (forRange 0 n).foldl
      (fun s i => (forRange (i + 1) (n + 1)).foldl
        (fun s k => s.addClause [mkLit (pigeonVar n i j) true, mkLit (pigeonVar n k j) true])
        s)
      s)
    s

/-- The function `main` of `php.cc`; `arg` is the value of `atoi(argv[1])`, read
only when `argc` is 2.  The DIMACS dump and the timing line are left out. -/
def main (argc : Int) (arg : Int) : Run :=
  if argc ≠ 2 then ⟨1, none, none⟩
  else
    let n := arg
    if n < 1 then ⟨1, none, none⟩
    else
      let s := addHoleClauses n (addPigeonClauses n (declareVars n Solver.empty))
      let res := s.solve
      ⟨0, some s, some (if res then "This cannot be!" else "As expected!")⟩

end Php

/-! ## Closed forms of the emitted clauses -/

/-- The solver with further clauses appended. -/
def Minisat.Solver.extend (s : Solver) (cs : List (List Lit)) : Solver :=
  { s with clauses := s.clauses ++ cs }

/-- The coloring object with further clauses appended to its solver. -/
def Coloring.extend (self : Coloring) (cs : List (List Lit)) : Coloring :=
  { self with m_solver := self.m_solver.extend cs }

/-- Closed form of the at-least-one clause of a node. -/
def atLeastOneClause (nodes k node : Int) : List Lit :=
  (forRange 0 k).map (fun c => mkLit (c * nodes + node) false)

/-- Closed form of the at-most-one clauses of a node, in emission order. -/
def atMostOneClauses (nodes k node : Int) : List (List Lit) :=
  (forRange 0 (k - 1)).flatMap (fun c =>
    (forRange (c + 1) k).map (fun k' =>
      [mkLit (c * nodes + node) true, mkLit (k' * nodes + node) true]))

/-- Closed form of what `addOneColorConstraints` adds. -/
def oneColorClauses (nodes k node : Int) : List (List Lit) :=
  atLeastOneClause nodes k node :: atMostOneClauses nodes k node

/-- Closed form of what `addEdgeColoringConstraints` adds. -/
def edgeClauses (nodes k n1 n2 : Int) : List (List Lit) :=
  (forRange 0 (k - 1)).map (fun c =>
    [mkLit (c * nodes + n1) true, mkLit (c * nodes + n2) true])

/-- Closed form of what the loop of `isColorable` adds. -/
def allClauses (g : Graph) (k : Int) : List (List Lit) :=
  (forRange 0 g.m_nNumberOfNodes).flatMap (fun n =>
    oneColorClauses g.m_nNumberOfNodes k n ++
      (g.m_graph.getD n.toNat []).flatMap (fun adjcent =>
        edgeClauses g.m_nNumberOfNodes k n adjcent))

/-- The representation invariant of `Graph`. -/
structure Graph.WF (g : Graph) : Prop where
  nonneg : 0 ≤ g.m_nNumberOfNodes
  rows : g.m_graph.length = g.m_nNumberOfNodes.toNat
  ordered : ∀ a b : Int, 0 ≤ a → b ∈ g.m_graph.getD a.toNat [] → a ≤ b ∧ b < g.m_nNumberOfNodes

/-- Closed form of the at-least-one clause of a pigeon. -/
def Php.pigeonClause (n i : Int) : List Lit :=
  (forRange 0 n).map (fun j => mkLit (Php.pigeonVar n i j) false)

/-- Closed form of the conflict clauses of a hole, in emission order. -/
def Php.holeClauses (n j : Int) : List (List Lit) :=
  (forRange 0 n).flatMap (fun i =>
    (forRange (i + 1) (n + 1)).map (fun k =>
      [mkLit (Php.pigeonVar n i j) true, mkLit (Php.pigeonVar n k j) true]))

/-- Closed form of the clauses `main` adds, in emission order. -/
def Php.driverClauses (n : Int) : List (List Lit) :=
  (forRange 0 (n + 1)).map (Php.pigeonClause n) ++ (forRange 0 n).flatMap (Php.holeClauses n)

/-- A proper k-coloring of the graph: every node `0 .. nodeCount-1` gets a color
in `0 .. k-1`, and the two endpoints of every stored edge get different colors. -/
def Graph.ProperColoring (g : Graph) (k : Int) (col : Int → Int) : Prop :=
  (∀ v, 0 ≤ v → v < g.m_nNumberOfNodes → 0 ≤ col v ∧ col v < k) ∧
    ∀ a b, g.hasEdge a b → col a ≠ col b

/-- The index pairs `(c, c')` visited, in order, by the nested loops
`for (c = 0; c < a; c++) for (c' = c+1; c' < b; c'++)`. -/
def pairLoop (a b : Int) : List (Int × Int) :=
  (forRange 0 a).flatMap (fun c => (forRange (c + 1) b).map (fun c' => (c, c')))

/-- The value a 32-bit two's-complement `int` holds when the exact result of an
operation is `z`: `z` itself inside `-2^31 .. 2^31-1`, wrapped around outside. -/
def int32 (z : Int) : Int := (z + 2147483648) % 4294967296 - 2147483648

/-- The method `Coloring::getNodeHasColorVar` with its return expression
`(color * nodes) + node` evaluated as the machine does, the product and the sum each
being a 32-bit `int` operation. -/
def Coloring.getNodeHasColorVarInt32 (self : Coloring) (node color : Int) :
    Except Fault Int :=
  if ¬ (node < self.m_graph.getNumberOfNodes ∧ color < self.m_nNumberOfColors) then
    .error .assertion
  else .ok (int32 (int32 (color * self.m_graph.getNumberOfNodes) + node))

/-- The expression `n*i + j` of `main` evaluated as the machine does, the product and
the sum each being a 32-bit `int` operation. -/
def Php.pigeonVarInt32 (n i j : Int) : Int := int32 (int32 (n * i) + j)

/-! ## Loops -/

theorem mem_forRange {lo hi x : Int} : x ∈ forRange lo hi ↔ lo ≤ x ∧ x < hi := by
  unfold forRange
  simp only [List.mem_map, List.mem_range]
  constructor
  · rintro ⟨i, hi', rfl⟩
    omega
  · rintro ⟨h1, h2⟩
    exact ⟨(x - lo).toNat, by omega, by omega⟩

theorem length_forRange (lo hi : Int) : (forRange lo hi).length = (hi - lo).toNat := by
  simp [forRange]

theorem forRange_nodup (lo hi : Int) : (forRange lo hi).Nodup := by
  unfold forRange
  refine List.Nodup.map ?_ (List.nodup_range _)
  intro a b h
  simpa using h

theorem forRange_empty {lo hi : Int} (h : hi ≤ lo) : forRange lo hi = [] := by
  unfold forRange
  have : (hi - lo).toNat = 0 := by omega
  simp [this]

theorem forRange_succ {lo hi : Int} (h : lo ≤ hi) :
    forRange lo (hi + 1) = forRange lo hi ++ [hi] := by
  unfold forRange
  have : (hi + 1 - lo).toNat = (hi - lo).toNat + 1 := by omega
  rw [this, List.range_succ, List.map_append]
  congr 1
  simp
  omega

theorem ok_bind {ε α β : Type} (a : α) (f : α → Except ε β) :
    (Except.ok a >>= f) = f a := rfl

/-- A loop whose body always succeeds by appending to the state. -/
theorem foldlM_act {σ α μ : Type} (act : σ → List μ → σ)
    (act_nil : ∀ s, act s [] = s)
    (act_app : ∀ s a b, act (act s a) b = act s (a ++ b))
    (P : σ → Prop) (hP : ∀ s a, P s → P (act s a))
    (f : σ → α → Except Fault σ) (cl : α → List μ) (l : List α)
    (h : ∀ s, P s → ∀ x ∈ l, f s x = .ok (act s (cl x))) :
    ∀ s, P s → l.foldlM f s = .ok (act s (l.flatMap cl)) := by
  induction l with
  | nil => intro s _; simp [act_nil]; rfl
  | cons x xs ih =>
    intro s hs
    rw [List.foldlM_cons, h s hs x (List.mem_cons_self _ _), ok_bind,
      ih (fun s hs y hy => h s hs y (List.mem_cons_of_mem _ hy)) _ (hP _ _ hs), act_app]
    simp [List.flatMap_cons]

/-- The same for a loop without failure. -/
theorem foldl_act {σ α μ : Type} (act : σ → List μ → σ)
    (act_nil : ∀ s, act s [] = s)
    (act_app : ∀ s a b, act (act s a) b = act s (a ++ b))
    (f : σ → α → σ) (cl : α → List μ) (l : List α)
    (h : ∀ s, ∀ x ∈ l, f s x = act s (cl x)) :
    ∀ s, l.foldl f s = act s (l.flatMap cl) := by
  induction l with
  | nil => intro s; simp [act_nil]
  | cons x xs ih =>
    intro s
    rw [List.foldl_cons, h s x (List.mem_cons_self _ _),
      ih (fun s y hy => h s y (List.mem_cons_of_mem _ hy)), act_app]
    simp [List.flatMap_cons]

theorem Minisat.Solver.extend_nil (s : Solver) : s.extend [] = s := by
  simp [Solver.extend]

theorem Minisat.Solver.extend_extend (s : Solver) (a b : List (List Lit)) :
    (s.extend a).extend b = s.extend (a ++ b) := by
  simp [Solver.extend]

theorem Minisat.Solver.addClause_eq (s : Solver) (c : List Lit) :
    s.addClause c = s.extend [c] := rfl

theorem Coloring.extend_none (self : Coloring) : self.extend [] = self := by
  simp [Coloring.extend, Solver.extend_nil]

theorem Coloring.extend_twice (self : Coloring) (a b : List (List Lit)) :
    (self.extend a).extend b = self.extend (a ++ b) := by
  simp [Coloring.extend, Solver.extend_extend]

theorem flatMap_single {α β : Type} (f : α → β) (l : List α) :
    l.flatMap (fun x => [f x]) = l.map f := by
  induction l with
  | nil => rfl
  | cons x xs ih => simp [List.flatMap_cons, ih]

/-! ## The coloring encoder in closed form -/

theorem Coloring.getNodeHasColorVar_ok (self : Coloring) {node color : Int}
    (hn : node < self.m_graph.m_nNumberOfNodes) (hc : color < self.m_nNumberOfColors) :
    self.getNodeHasColorVar node color = .ok (color * self.m_graph.m_nNumberOfNodes + node) := by
  simp [Coloring.getNodeHasColorVar, Graph.getNumberOfNodes, hn, hc]

theorem Coloring.addOneColorConstraints_ok (self : Coloring) {node : Int}
    (hn : node < self.m_graph.m_nNumberOfNodes) :
    self.addOneColorConstraints node =
      .ok (self.extend (oneColorClauses self.m_graph.m_nNumberOfNodes self.m_nNumberOfColors node)) := by
  unfold Coloring.addOneColorConstraints
  rw [foldlM_act (fun (s : List Lit) (a : List Lit) => s ++ a) (by simp) (by simp)
      (fun _ => True) (fun _ _ _ => trivial) _
      (fun c => [mkLit (c * self.m_graph.m_nNumberOfNodes + node) false]) _ ?h1 _ trivial]
  case h1 =>
    intro s _ c hc
    rw [mem_forRange] at hc
    dsimp only
    rw [self.getNodeHasColorVar_ok hn hc.2]
    rfl
  simp only [Graph.getNumberOfNodes, hn, not_true_eq_false, if_false, pure_bind, ok_bind]
  rw [foldlM_act Solver.extend Solver.extend_nil Solver.extend_extend
      (fun _ => True) (fun _ _ _ => trivial) _
      (fun c => (forRange (c + 1) self.m_nNumberOfColors).map (fun k' =>
        [mkLit (c * self.m_graph.m_nNumberOfNodes + node) true,
         mkLit (k' * self.m_graph.m_nNumberOfNodes + node) true])) _ ?h2 _ trivial]
  case h2 =>
    intro s _ c hc
    rw [mem_forRange] at hc
    dsimp only
    rw [foldlM_act Solver.extend Solver.extend_nil Solver.extend_extend
      (fun _ => True) (fun _ _ _ => trivial) _
      (fun k' => [[mkLit (c * self.m_graph.m_nNumberOfNodes + node) true,
         mkLit (k' * self.m_graph.m_nNumberOfNodes + node) true]]) _ ?h3 _ trivial]
    case h3 =>
      intro s _ k' hk
      rw [mem_forRange] at hk
      dsimp only
      rw [self.getNodeHasColorVar_ok hn (by omega), self.getNodeHasColorVar_ok hn hk.2]
      rfl
    rw [flatMap_single]
  simp [Coloring.extend, oneColorClauses, atLeastOneClause, atMostOneClauses, flatMap_single,
    Solver.addClause_eq, Solver.extend_extend]

theorem Coloring.addEdgeColoringConstraints_ok (self : Coloring) {n1 n2 : Int}
    (h1 : n1 < self.m_graph.m_nNumberOfNodes) (h2 : n2 < self.m_graph.m_nNumberOfNodes)
    (h12 : n1 ≤ n2) :
    self.addEdgeColoringConstraints n1 n2 =
      .ok (self.extend (edgeClauses self.m_graph.m_nNumberOfNodes self.m_nNumberOfColors n1 n2)) := by
  unfold Coloring.addEdgeColoringConstraints
  rw [foldlM_act Solver.extend Solver.extend_nil Solver.extend_extend
      (fun _ => True) (fun _ _ _ => trivial) _
      (fun c => [[mkLit (c * self.m_graph.m_nNumberOfNodes + n1) true,
         mkLit (c * self.m_graph.m_nNumberOfNodes + n2) true]]) _ ?h _ trivial]
  case h =>
    intro s _ c hc
    rw [mem_forRange] at hc
    dsimp only
    rw [self.getNodeHasColorVar_ok h1 (by omega), self.getNodeHasColorVar_ok h2 (by omega)]
    rfl
  simp only [Graph.getNumberOfNodes, h1, h2, h12, and_self, not_true_eq_false, if_false, ite_false]
  simp [Coloring.extend, edgeClauses, flatMap_single]

/-! ## Graphs built through `addEdge` -/

theorem Graph.new_ok {n : Int} {g : Graph} (h : Graph.new n = .ok g) :
    g.WF ∧ g.m_nNumberOfNodes = n := by
  unfold Graph.new at h
  split at h
  · cases h
  · injection h with h
    subst h
    refine ⟨⟨by simpa using ‹¬ n < 0›, by simp [resizeRows], ?_⟩, rfl⟩
    intro a b _ hb
    simp only [resizeRows, List.take_nil, List.nil_append, List.length_nil, Nat.sub_zero] at hb
    rw [List.getD_eq_getElem?_getD] at hb
    by_cases hlt : a.toNat < n.toNat
    · simp [List.getElem?_replicate, hlt] at hb
    · simp [List.getElem?_replicate, hlt] at hb

theorem Graph.addEdge_ok {g g' : Graph} {n1 n2 : Int} (hg : g.WF)
    (h : g.addEdge n1 n2 = .ok g') :
    g'.WF ∧ g'.m_nNumberOfNodes = g.m_nNumberOfNodes ∧ 0 ≤ n1 ∧ n1 ≤ n2 ∧
      n2 < g.m_nNumberOfNodes ∧
      g'.m_graph = g.m_graph.modify (fun row => row ++ [n2]) n1.toNat := by
  unfold Graph.addEdge at h
  split at h
  · cases h
  rename_i h1
  split at h
  · cases h
  rename_i h2
  split at h
  · cases h
  split at h
  · cases h
  rename_i h3
  simp only [not_not] at h1 h2
  have hlen : ¬ g.m_graph.length ≤ n1.toNat := by
    rw [hg.rows]; omega
  simp only [hlen, if_false] at h
  injection h with h
  subst h
  refine ⟨⟨hg.nonneg, by simp [hg.rows], ?_⟩, rfl, by omega, h2, h1.2, rfl⟩
  intro a b ha hb
  dsimp only at hb ⊢
  rw [List.getD_eq_getElem?_getD, List.getElem?_modify] at hb
  have hold := hg.ordered a b ha
  rw [List.getD_eq_getElem?_getD] at hold
  by_cases hEq : n1.toNat = a.toNat
  · simp only [hEq, if_true] at hb
    cases hrow : g.m_graph[a.toNat]? with
    | none => simp [hrow] at hb
    | some row =>
      simp only [hrow, Option.getD_some] at hold
      rw [hrow] at hb
      change b ∈ row ++ [n2] at hb
      rw [List.mem_append, List.mem_singleton] at hb
      rcases hb with hb | hb
      · exact hold hb
      · subst hb
        have : n1 = a := by omega
        subst this
        exact ⟨h2, h1.2⟩
  · simp only [hEq, if_false] at hb
    exact hold (by simpa using hb)

theorem Graph.build_ok {n : Int} {edges : List (Int × Int)} {g : Graph}
    (h : Graph.build n edges = .ok g) : g.WF ∧ g.m_nNumberOfNodes = n := by
  unfold Graph.build at h
  cases h0 : Graph.new n with
  | error e => rw [h0] at h; cases h
  | ok g0 =>
    rw [h0, ok_bind] at h
    obtain ⟨hwf, hn⟩ := Graph.new_ok h0
    clear h0
    induction edges generalizing g0 with
    | nil =>
      cases h
      exact ⟨hwf, hn⟩
    | cons e es ih =>
      rw [List.foldlM_cons] at h
      cases h1 : g0.addEdge e.1 e.2 with
      | error e => rw [h1] at h; cases h
      | ok g1 =>
        rw [h1, ok_bind] at h
        obtain ⟨hwf1, hn1, -⟩ := Graph.addEdge_ok hwf h1
        exact ih g1 h hwf1 (hn1.trans hn)

theorem Graph.getEdgesForNode_ok {g : Graph} (hg : g.WF) {node : Int}
    (h0 : 0 ≤ node) (h1 : node < g.m_nNumberOfNodes) :
    g.getEdgesForNode node = .ok (g.m_graph.getD node.toNat []) := by
  unfold Graph.getEdgesForNode
  have hlen : node.toNat < g.m_graph.length := by rw [hg.rows]; omega
  simp [h1, not_lt.mpr h0, hlen, List.getD_eq_getElem?_getD]

theorem Coloring.addAllConstraints_ok (self : Coloring) (hg : self.m_graph.WF) :
    self.addAllConstraints =
      .ok (self.extend (allClauses self.m_graph self.m_nNumberOfColors)) := by
  unfold Coloring.addAllConstraints allClauses
  refine foldlM_act Coloring.extend Coloring.extend_none Coloring.extend_twice
    (fun s => s.m_graph = self.m_graph ∧ s.m_nNumberOfColors = self.m_nNumberOfColors)
    (fun _ _ h => h) _ _ _ ?_ self ⟨rfl, rfl⟩
  intro s hs n hn
  rw [Graph.getNumberOfNodes, mem_forRange] at hn
  obtain ⟨hsg, hsk⟩ := hs
  rw [s.addOneColorConstraints_ok (by rw [hsg]; exact hn.2), ok_bind]
  have hg' : (s.extend (oneColorClauses s.m_graph.m_nNumberOfNodes s.m_nNumberOfColors n)).m_graph
      = self.m_graph := hsg
  rw [hg', Graph.getEdgesForNode_ok hg hn.1 hn.2, ok_bind]
  rw [foldlM_act Coloring.extend Coloring.extend_none Coloring.extend_twice
    (fun s => s.m_graph = self.m_graph ∧ s.m_nNumberOfColors = self.m_nNumberOfColors)
    (fun _ _ h => h) _
    (fun adjcent => edgeClauses self.m_graph.m_nNumberOfNodes self.m_nNumberOfColors n adjcent)
    _ ?h (s.extend (oneColorClauses s.m_graph.m_nNumberOfNodes s.m_nNumberOfColors n))
    ⟨hsg, hsk⟩]
  case h =>
    intro t ht b hb
    have hb' := hg.ordered n b hn.1 hb
    rw [t.addEdgeColoringConstraints_ok (by rw [ht.1]; exact hn.2) (by rw [ht.1]; exact hb'.2)
      hb'.1, ht.1, ht.2]
  rw [Coloring.extend_twice, hsg, hsk]

theorem newVar_loop {α : Type} (l : List α) (s : Solver) :
    l.foldl (fun s _ => s.newVar.2) s = { s with nVars := s.nVars + l.length } := by
  induction l generalizing s with
  | nil => rfl
  | cons x xs ih =>
    rw [List.foldl_cons, ih]
    simp [Solver.newVar, Nat.add_assoc, Nat.add_comm 1]

theorem newVar_loops {α β : Type} (l : List α) (m : List β) (s : Solver) :
    l.foldl (fun s _ => m.foldl (fun s _ => s.newVar.2) s) s =
      { s with nVars := s.nVars + l.length * m.length } := by
  induction l generalizing s with
  | nil => simp
  | cons x xs ih =>
    rw [List.foldl_cons, ih, newVar_loop]
    simp [Nat.add_assoc, Nat.succ_mul, Nat.add_comm m.length]

theorem Coloring.new_eq (g : Graph) (k : Int) :
    Coloring.new g k = ⟨g, k, ⟨k.toNat * g.m_nNumberOfNodes.toNat, []⟩⟩ := by
  unfold Coloring.new
  simp only [newVar_loops, length_forRange, Graph.getNumberOfNodes, Solver.empty]
  simp

/-! ## The solver -/

theorem satisfies_iff {a : Int → Bool} {cs : List (List Lit)} :
    satisfies a cs = true ↔ ∀ c ∈ cs, ∃ l ∈ c, Lit.holds a l = true := by
  simp [satisfies, clauseHolds]

theorem Minisat.Solver.solve_sound {s : Solver} (h : s.solve = true) : Satisfiable s.clauses := by
  unfold Solver.solve at h
  rw [List.any_eq_true] at h
  obtain ⟨t, -, ht⟩ := h
  exact ⟨_, ht⟩

theorem Php.declareVars_eq (n : Int) (s : Solver) :
    Php.declareVars n s = { s with nVars := s.nVars + (n + 1).toNat * n.toNat } := by
  unfold Php.declareVars
  rw [newVar_loops]
  simp [length_forRange]

theorem Php.addPigeonClauses_eq (n : Int) (s : Solver) :
    Php.addPigeonClauses n s = s.extend ((forRange 0 (n + 1)).map (Php.pigeonClause n)) := by
  unfold Php.addPigeonClauses
  rw [foldl_act Solver.extend Solver.extend_nil Solver.extend_extend _
    (fun i => [Php.pigeonClause n i]) _ ?h, flatMap_single]
  intro s i _
  dsimp only
  rw [foldl_act (fun (c : List Lit) (a : List Lit) => c ++ a) (by simp) (by simp) _
    (fun j => [mkLit (Php.pigeonVar n i j) false]) _ (fun _ _ _ => rfl), flatMap_single]
  rfl

theorem Php.addHoleClauses_eq (n : Int) (s : Solver) :
    Php.addHoleClauses n s = s.extend ((forRange 0 n).flatMap (Php.holeClauses n)) := by
  unfold Php.addHoleClauses
  rw [foldl_act Solver.extend Solver.extend_nil Solver.extend_extend _
    (Php.holeClauses n) _ ?h]
  intro s j _
  dsimp only
  unfold Php.holeClauses
  rw [foldl_act Solver.extend Solver.extend_nil Solver.extend_extend _
    (fun i => (forRange (i + 1) (n + 1)).map (fun k =>
      [mkLit (Php.pigeonVar n i j) true, mkLit (Php.pigeonVar n k j) true])) _ ?h2]
  intro s i _
  dsimp only
  rw [foldl_act Solver.extend Solver.extend_nil Solver.extend_extend _
    (fun k => [[mkLit (Php.pigeonVar n i j) true, mkLit (Php.pigeonVar n k j) true]]) _
    ?h3, flatMap_single]
  intro s k _
  rfl

theorem Php.main_eq {n : Int} (hn : 1 ≤ n) :
    Php.main 2 n =
      ⟨0, some ⟨(n + 1).toNat * n.toNat, Php.driverClauses n⟩,
        some (if (Solver.mk ((n + 1).toNat * n.toNat) (Php.driverClauses n)).solve
          then "This cannot be!" else "As expected!")⟩ := by
  have h : ¬ n < 1 := by omega
  simp [Php.main, h, Php.declareVars_eq, Php.addPigeonClauses_eq, Php.addHoleClauses_eq,
    Solver.extend, Solver.empty, Php.driverClauses]

theorem Coloring.isColorable_ok {n : Int} {edges : List (Int × Int)} {g : Graph}
    (hg : Graph.build n edges = .ok g) (k : Int) :
    (Coloring.new g k).isColorable =
      .ok ((Solver.mk (k.toNat * g.m_nNumberOfNodes.toNat) (allClauses g k)).solve,
        ⟨g, k, ⟨k.toNat * g.m_nNumberOfNodes.toNat, allClauses g k⟩⟩) := by
  unfold Coloring.isColorable
  rw [Coloring.addAllConstraints_ok _ (by rw [Coloring.new_eq]; exact (Graph.build_ok hg).1),
    Coloring.new_eq]
  rfl

/-! ## What the clauses say -/

theorem holds_pos (a : Int → Bool) (v : Int) : Lit.holds a (mkLit v false) = a v := by
  simp [Lit.holds, mkLit]

theorem holds_neg (a : Int → Bool) (v : Int) : Lit.holds a (mkLit v true) = !a v := by
  simp [Lit.holds, mkLit]

theorem satisfies_append (a : Int → Bool) (cs ds : List (List Lit)) :
    satisfies a (cs ++ ds) = (satisfies a cs && satisfies a ds) := by
  simp [satisfies]

theorem atLeastOne_mem_allClauses {g : Graph} {k node : Int}
    (h0 : 0 ≤ node) (h1 : node < g.m_nNumberOfNodes) :
    atLeastOneClause g.m_nNumberOfNodes k node ∈ allClauses g k := by
  unfold allClauses
  rw [List.mem_flatMap]
  exact ⟨node, mem_forRange.mpr ⟨h0, h1⟩, by simp [oneColorClauses]⟩

theorem atMostOne_mem_allClauses {g : Graph} {k node c c' : Int}
    (h0 : 0 ≤ node) (h1 : node < g.m_nNumberOfNodes) (hc : 0 ≤ c) (hcc : c < c') (hc' : c' < k) :
    [mkLit (c * g.m_nNumberOfNodes + node) true, mkLit (c' * g.m_nNumberOfNodes + node) true]
      ∈ allClauses g k := by
  unfold allClauses
  rw [List.mem_flatMap]
  refine ⟨node, mem_forRange.mpr ⟨h0, h1⟩, ?_⟩
  rw [List.mem_append]
  left
  unfold oneColorClauses atMostOneClauses
  refine List.mem_cons_of_mem _ ?_
  rw [List.mem_flatMap]
  refine ⟨c, mem_forRange.mpr ⟨hc, by omega⟩, ?_⟩
  rw [List.mem_map]
  exact ⟨c', mem_forRange.mpr ⟨by omega, hc'⟩, rfl⟩

/-- Every clause of the closed form is of one of the three kinds. -/
theorem mem_allClauses {g : Graph} {k : Int} {cl : List Lit} (h : cl ∈ allClauses g k) :
    ∃ node, 0 ≤ node ∧ node < g.m_nNumberOfNodes ∧
      (cl = atLeastOneClause g.m_nNumberOfNodes k node ∨
       (∃ c c', 0 ≤ c ∧ c < c' ∧ c' < k ∧
          cl = [mkLit (c * g.m_nNumberOfNodes + node) true,
                mkLit (c' * g.m_nNumberOfNodes + node) true]) ∨
       (∃ b c, g.hasEdge node b ∧ 0 ≤ c ∧ c < k - 1 ∧
          cl = [mkLit (c * g.m_nNumberOfNodes + node) true,
                mkLit (c * g.m_nNumberOfNodes + b) true])) := by
  unfold allClauses at h
  rw [List.mem_flatMap] at h
  obtain ⟨node, hnode, h⟩ := h
  rw [mem_forRange] at hnode
  refine ⟨node, hnode.1, hnode.2, ?_⟩
  rw [List.mem_append] at h
  rcases h with h | h
  · unfold oneColorClauses at h
    rw [List.mem_cons] at h
    rcases h with h | h
    · exact Or.inl h
    · right; left
      unfold atMostOneClauses at h
      rw [List.mem_flatMap] at h
      obtain ⟨c, hc, h⟩ := h
      rw [List.mem_map] at h
      obtain ⟨c', hc', rfl⟩ := h
      rw [mem_forRange] at hc hc'
      exact ⟨c, c', hc.1, by omega, hc'.2, rfl⟩
  · right; right
    rw [List.mem_flatMap] at h
    obtain ⟨b, hb, h⟩ := h
    unfold edgeClauses at h
    rw [List.mem_map] at h
    obtain ⟨c, hc, rfl⟩ := h
    rw [mem_forRange] at hc
    exact ⟨b, c, ⟨hnode.1, hb⟩, hc.1, hc.2, rfl⟩

/-- In a satisfying assignment every node has exactly one color variable true. -/
theorem exactly_one_of_satisfies {g : Graph} {k : Int} {a : Int → Bool}
    (ha : satisfies a (allClauses g k) = true) {node : Int}
    (h0 : 0 ≤ node) (h1 : node < g.m_nNumberOfNodes) :
    ∃! c : Int, (0 ≤ c ∧ c < k) ∧ a (c * g.m_nNumberOfNodes + node) = true := by
  rw [satisfies_iff] at ha
  obtain ⟨l, hl, hl'⟩ := ha _ (atLeastOne_mem_allClauses h0 h1)
  unfold atLeastOneClause at hl
  rw [List.mem_map] at hl
  obtain ⟨c, hc, rfl⟩ := hl
  rw [mem_forRange] at hc
  rw [holds_pos] at hl'
  refine ⟨c, ⟨hc, hl'⟩, ?_⟩
  rintro d ⟨hd, hd'⟩
  by_contra hne
  have key : ∀ x y : Int, 0 ≤ x → x < y → y < k →
      a (x * g.m_nNumberOfNodes + node) = true → a (y * g.m_nNumberOfNodes + node) = true →
      False := by
    intro x y hx hxy hy ax ay
    obtain ⟨l, hl, hh⟩ := ha _ (atMostOne_mem_allClauses h0 h1 hx hxy hy)
    simp only [List.mem_cons, List.mem_singleton, List.not_mem_nil, or_false] at hl
    rcases hl with rfl | rfl
    · rw [holds_neg, ax] at hh; cases hh
    · rw [holds_neg, ay] at hh; cases hh
  rcases lt_or_gt_of_ne hne with h | h
  · exact key d c hd.1 h hc.2 hd' hl'
  · exact key c d hc.1 h hd.2 hl' hd'

/-! ## Variable numbering -/

theorem var_range {N k c x : Int} (hc : 0 ≤ c) (hck : c < k) (hx : 0 ≤ x) (hxN : x < N) :
    0 ≤ c * N + x ∧ c * N + x < N * k := by
  have hN : 0 ≤ N := by omega
  have h1 : 0 ≤ c * N := mul_nonneg hc hN
  have h2 : (c + 1) * N ≤ k * N := mul_le_mul_of_nonneg_right (by omega) hN
  constructor
  · omega
  · nlinarith

theorem var_inj {N c x c' x' : Int} (hx : 0 ≤ x) (hxN : x < N) (hx' : 0 ≤ x') (hxN' : x' < N)
    (h : c * N + x = c' * N + x') : x = x' ∧ c = c' := by
  have hN : 0 ≤ N := by omega
  have hcc : c = c' := by
    by_contra hne
    rcases lt_or_gt_of_ne hne with hlt | hlt
    · have := mul_le_mul_of_nonneg_right (show c + 1 ≤ c' by omega) hN
      nlinarith
    · have := mul_le_mul_of_nonneg_right (show c' + 1 ≤ c by omega) hN
      nlinarith
  subst hcc
  exact ⟨by omega, rfl⟩

theorem var_surj {N k v : Int} (hN : 0 ≤ N) (hv : 0 ≤ v) (hvk : v < N * k) :
    ∃ c x, 0 ≤ c ∧ c < k ∧ 0 ≤ x ∧ x < N ∧ c * N + x = v := by
  have hNpos : 0 < N := by
    rcases eq_or_lt_of_le hN with h | h
    · subst h; simp at hvk; omega
    · exact h
  refine ⟨v / N, v % N, Int.ediv_nonneg hv hN, ?_, Int.emod_nonneg _ (by omega),
    Int.emod_lt_of_pos _ hNpos, ?_⟩
  · exact Int.ediv_lt_of_lt_mul hNpos (by rw [mul_comm]; exact hvk)
  · rw [mul_comm]; exact Int.ediv_add_emod v N

theorem allClauses_lit_range {g : Graph} (hg : g.WF) {k : Int} {cl : List Lit}
    (h : cl ∈ allClauses g k) {l : Lit} (hl : l ∈ cl) :
    0 ≤ l.x ∧ l.x < g.m_nNumberOfNodes * k := by
  obtain ⟨node, h0, h1, h⟩ := mem_allClauses h
  rcases h with rfl | ⟨c, c', hc, hcc, hc', rfl⟩ | ⟨b, c, he, hc, hc', rfl⟩
  · unfold atLeastOneClause at hl
    rw [List.mem_map] at hl
    obtain ⟨c, hc, rfl⟩ := hl
    rw [mem_forRange] at hc
    exact var_range hc.1 hc.2 h0 h1
  · simp only [List.mem_cons, List.mem_singleton, List.not_mem_nil, or_false] at hl
    rcases hl with rfl | rfl
    · exact var_range hc (by omega) h0 h1
    · exact var_range (by omega) hc' h0 h1
  · have hb := hg.ordered node b he.1 he.2
    simp only [List.mem_cons, List.mem_singleton, List.not_mem_nil, or_false] at hl
    rcases hl with rfl | rfl
    · exact var_range hc (by omega) h0 h1
    · exact var_range hc (by omega) (by omega) hb.2

theorem Php.driverClauses_lit_range {n : Int} {cl : List Lit}
    (h : cl ∈ Php.driverClauses n) {l : Lit} (hl : l ∈ cl) :
    0 ≤ l.x ∧ l.x < n * (n + 1) := by
  have key : ∀ i j : Int, 0 ≤ i → i ≤ n → 0 ≤ j → j < n →
      0 ≤ Php.pigeonVar n i j ∧ Php.pigeonVar n i j < n * (n + 1) := by
    intro i j hi0 hi1 hj0 hj1
    have := @var_range n (n + 1) i j hi0 (by omega) hj0 hj1
    unfold Php.pigeonVar
    rw [mul_comm n i]
    exact this
  unfold Php.driverClauses at h
  rw [List.mem_append] at h
  rcases h with h | h
  · rw [List.mem_map] at h
    obtain ⟨i, hi, rfl⟩ := h
    unfold Php.pigeonClause at hl
    rw [List.mem_map] at hl
    obtain ⟨j, hj, rfl⟩ := hl
    rw [mem_forRange] at hi hj
    exact key i j hi.1 (by omega) hj.1 hj.2
  · rw [List.mem_flatMap] at h
    obtain ⟨j, hj, h⟩ := h
    unfold Php.holeClauses at h
    rw [List.mem_flatMap] at h
    obtain ⟨i, hi, h⟩ := h
    rw [List.mem_map] at h
    obtain ⟨k, hk, rfl⟩ := h
    rw [mem_forRange] at hi hj hk
    simp only [List.mem_cons, List.mem_singleton, List.not_mem_nil, or_false] at hl
    rcases hl with rfl | rfl
    · exact key i j hi.1 (by omega) hj.1 hj.2
    · exact key k j (by omega) (by omega) hj.1 hj.2

/-! ## Counting the clauses -/

theorem sum_descending (m d : Nat) :
    ((List.range m).map (fun c => m + d - c)).sum * 2 = m * (m + 1) + 2 * m * d := by
  induction m generalizing d with
  | zero => simp
  | succ m ih =>
    rw [List.range_succ, List.map_append, List.sum_append]
    have hfun : (List.range m).map (fun c => m + 1 + d - c) =
        (List.range m).map (fun c => m + (d + 1) - c) := by
      apply List.map_congr_left
      intro c _
      omega
    rw [hfun, Nat.add_mul, ih (d + 1)]
    simp only [List.map_cons, List.map_nil, List.sum_cons, List.sum_nil]
    have : m + 1 + d - m = d + 1 := by omega
    rw [this]
    ring

/-- The number of pairs `lo <= c < c' < hi + 1` visited by the two nested loops
`for c in lo..hi, for c' in c+1..hi+1`, counted through the inner lengths. -/
theorem pair_loop_length {β : Type} (m : Nat) (f : Int → Int → β) :
    (((forRange 0 (m : Int)).flatMap (fun c =>
      (forRange (c + 1) ((m : Int) + 1)).map (f c))).length : Int) * 2 = m * (m + 1) := by
  rw [List.length_flatMap]
  have h : (forRange 0 (m : Int)).map
      (List.length ∘ fun c => (forRange (c + 1) ((m : Int) + 1)).map (f c)) =
      (List.range m).map (fun c => m + 0 - c) := by
    unfold forRange
    rw [List.map_map]
    simp only [sub_zero, Int.toNat_ofNat]
    apply List.map_congr_left
    intro c hc
    rw [List.mem_range] at hc
    simp only [Function.comp, List.length_map, List.length_range]
    omega
  rw [h]
  have := sum_descending m 0
  simp only [Nat.mul_zero, Nat.add_zero] at this
  exact_mod_cast this

theorem mem_pairLoop {a b c c' : Int} :
    (c, c') ∈ pairLoop a b ↔ (0 ≤ c ∧ c < a) ∧ c < c' ∧ c' < b := by
  unfold pairLoop
  simp only [List.mem_flatMap, List.mem_map, mem_forRange, Prod.mk.injEq]
  constructor
  · rintro ⟨x, hx, y, hy, rfl, rfl⟩
    exact ⟨hx, by omega, hy.2⟩
  · rintro ⟨hc, h1, h2⟩
    exact ⟨c, hc, c', ⟨by omega, h2⟩, rfl, rfl⟩

theorem pairLoop_nodup (a b : Int) : (pairLoop a b).Nodup := by
  unfold pairLoop
  rw [List.nodup_flatMap]
  constructor
  · intro c _
    refine List.Nodup.map ?_ (forRange_nodup _ _)
    intro x y h
    simpa using h
  · refine List.Pairwise.imp ?_ (forRange_nodup 0 a)
    intro c d hcd p hp hq
    rw [List.mem_map] at hp hq
    obtain ⟨x, -, rfl⟩ := hp
    obtain ⟨y, -, hy⟩ := hq
    simp only [Prod.mk.injEq] at hy
    exact hcd hy.1.symm

theorem map_pairLoop {β : Type} (a b : Int) (f : Int → Int → β) :
    (pairLoop a b).map (fun p => f p.1 p.2) =
      (forRange 0 a).flatMap (fun c => (forRange (c + 1) b).map (f c)) := by
  unfold pairLoop
  rw [List.map_flatMap]
  simp only [List.map_map]
  rfl

theorem length_pairLoop_succ (m : Nat) :
    ((pairLoop (m : Int) ((m : Int) + 1)).length : Int) * 2 = m * (m + 1) := by
  have := pair_loop_length m (fun c c' => (c, c'))
  exact this

theorem length_flatMap_const {α β : Type} (l : List α) (f : α → List β) (L : Nat)
    (h : ∀ x ∈ l, (f x).length = L) : (l.flatMap f).length = l.length * L := by
  induction l with
  | nil => simp
  | cons x xs ih =>
    rw [List.flatMap_cons, List.length_append, h x (List.mem_cons_self _ _),
      ih (fun y hy => h y (List.mem_cons_of_mem _ hy)), List.length_cons]
    ring

theorem Graph.addEdge_eq {g : Graph} (hg : g.WF) {n1 n2 : Int}
    (h0 : 0 ≤ n1) (h12 : n1 ≤ n2) (h2 : n2 < g.m_nNumberOfNodes) :
    g.addEdge n1 n2 =
      .ok { g with m_graph := g.m_graph.modify (fun row => row ++ [n2]) n1.toNat } := by
  unfold Graph.addEdge
  have hlen : ¬ g.m_graph.length ≤ n1.toNat := by rw [hg.rows]; omega
  have h1 : n1 < g.m_nNumberOfNodes := by omega
  simp [h1, h2, h12, hlen, not_lt.mpr h0, show ¬ n1 < -1 by omega]

theorem Graph.addEdge_fault {g : Graph} {n1 n2 : Int} (h : n1 < 0)
    (h1 : n1 < g.m_nNumberOfNodes) (h2 : n2 < g.m_nNumberOfNodes) (h12 : n1 ≤ n2) :
    g.addEdge n1 n2 = .error (if n1 < -1 then Fault.lengthError else Fault.outOfBounds) := by
  unfold Graph.addEdge
  by_cases h' : n1 < -1
  · simp [h1, h2, h12, h']
  · simp [h1, h2, h12, h', h]

theorem Graph.addEdge_assertion {g : Graph} {n1 n2 : Int} :
    g.addEdge n1 n2 = .error Fault.assertion ↔
      ¬ (n1 < g.m_nNumberOfNodes ∧ n2 < g.m_nNumberOfNodes ∧ n1 ≤ n2) := by
  unfold Graph.addEdge
  by_cases h1 : n1 < g.m_nNumberOfNodes ∧ n2 < g.m_nNumberOfNodes
  · by_cases h12 : n1 ≤ n2
    · by_cases ha : n1 < -1
      · simp [h1, h12, ha]
      · by_cases hb : n1 < 0
        · simp [h1, h12, ha, hb]
        · simp [h1, h12, ha, hb]
    · simp [h1, h12]
  · have : ¬ (n1 < g.m_nNumberOfNodes ∧ n2 < g.m_nNumberOfNodes ∧ n1 ≤ n2) := by
      rintro ⟨a, b, -⟩; exact h1 ⟨a, b⟩
    simp [h1, this]

theorem Graph.getEdgesForNode_modify {g : Graph} {a m : Int} (f : List Int → List Int)
    (ha : 0 ≤ a) (hne : m ≠ a) :
    Graph.getEdgesForNode { g with m_graph := g.m_graph.modify f a.toNat } m =
      g.getEdgesForNode m := by
  unfold Graph.getEdgesForNode
  by_cases h1 : m < g.m_nNumberOfNodes
  · by_cases h0 : m < 0
    · simp [h1, h0]
    · have hidx : a.toNat ≠ m.toNat := by omega
      by_cases hl : m.toNat < g.m_graph.length
      · simp [h1, h0, hl, List.getElem_modify, hidx]
      · simp [h1, h0, hl]
  · simp [h1]

theorem getD_modify_same (rows : List (List Int)) (f : List Int → List Int) (i : Nat)
    (h : i < rows.length) :
    (rows.modify f i).getD i [] = f (rows.getD i []) := by
  rw [List.getD_eq_getElem?_getD, List.getD_eq_getElem?_getD, List.getElem?_modify]
  simp [List.getElem?_eq_getElem h]

theorem getD_modify_other (rows : List (List Int)) (f : List Int → List Int) {i j : Nat}
    (h : i ≠ j) :
    (rows.modify f i).getD j [] = rows.getD j [] := by
  rw [List.getD_eq_getElem?_getD, List.getD_eq_getElem?_getD, List.getElem?_modify]
  simp [h]

/-- The neighbor list of a node is the list of second arguments of the `addEdge`
calls on that node, in call order, after what the list held before them. -/
theorem Graph.foldlM_addEdge_rows {edges : List (Int × Int)} {g0 g : Graph} (hg0 : g0.WF)
    (h : edges.foldlM (fun g e => g.addEdge e.1 e.2) g0 = .ok g) {node : Int}
    (hnode : 0 ≤ node) :
    g.m_graph.getD node.toNat [] =
      g0.m_graph.getD node.toNat [] ++
        (edges.filter (fun e => decide (e.1 = node))).map (fun e => e.2) := by
  induction edges generalizing g0 with
  | nil =>
    cases h
    simp
  | cons e es ih =>
    rw [List.foldlM_cons] at h
    cases h1 : g0.addEdge e.1 e.2 with
    | error err => rw [h1] at h; cases h
    | ok g1 =>
      rw [h1, ok_bind] at h
      obtain ⟨hwf1, -, he0, -, -, hrows⟩ := Graph.addEdge_ok hg0 h1
      rw [ih hwf1 h, hrows]
      by_cases heq : e.1 = node
      · subst heq
        have hlen : e.1.toNat < g0.m_graph.length := by
          have := (Graph.addEdge_ok hg0 h1).2.2.2
          rw [hg0.rows]; omega
        rw [getD_modify_same _ _ _ hlen]
        simp [List.filter_cons]
      · have hidx : e.1.toNat ≠ node.toNat := by omega
        rw [getD_modify_other _ _ hidx]
        simp [List.filter_cons, heq]
/-! ## Degenerate and repeated encodings -/

theorem edgeClauses_zero (nodes n1 n2 : Int) : edgeClauses nodes 0 n1 n2 = [] := by
  simp [edgeClauses, forRange]

theorem oneColorClauses_zero (nodes node : Int) : oneColorClauses nodes 0 node = [[]] := by
  simp [oneColorClauses, atLeastOneClause, atMostOneClauses, forRange]

theorem flatMap_nil_body {α β : Type} (l : List α) :
    l.flatMap (fun _ => ([] : List β)) = [] := by
  induction l with
  | nil => rfl
  | cons x xs ih => simp [List.flatMap_cons, ih]

theorem oneColorAndEdges_zero (g : Graph) (x : Int) :
    oneColorClauses g.m_nNumberOfNodes 0 x ++
      (g.m_graph.getD x.toNat []).flatMap (fun adjcent =>
        edgeClauses g.m_nNumberOfNodes 0 x adjcent) = [[]] := by
  simp only [oneColorClauses_zero, edgeClauses_zero, flatMap_nil_body, List.append_nil]

theorem allClauses_zero (g : Graph) :
    allClauses g 0 = List.replicate g.m_nNumberOfNodes.toNat [] := by
  rw [List.eq_replicate_iff]
  unfold allClauses
  constructor
  · rw [length_flatMap_const _ _ 1, length_forRange]
    · simp
    · intro x _
      rw [oneColorAndEdges_zero]
      rfl
  · intro cl hcl
    rw [List.mem_flatMap] at hcl
    obtain ⟨x, -, hx⟩ := hcl
    rw [oneColorAndEdges_zero] at hx
    simpa using hx

theorem not_satisfies_of_empty_mem {cs : List (List Lit)} (h : [] ∈ cs) (a : Int → Bool) :
    satisfies a cs ≠ true := by
  intro ha
  rw [satisfies_iff] at ha
  obtain ⟨l, hl, -⟩ := ha [] h
  cases hl

theorem Minisat.Solver.solve_twice (nVars : Nat) (cs : List (List Lit)) :
    (Solver.mk nVars (cs ++ cs)).solve = (Solver.mk nVars cs).solve := by
  unfold Solver.solve
  simp [satisfies_append]
/-! ## What `isColorable` decides -/

theorem int32_of_fits {z : Int} (h0 : -2147483648 ≤ z) (h1 : z ≤ 2147483647) :
    int32 z = z := by
  unfold int32
  omega

/-- Below `2^31` ids no operation of the id computation wraps. -/
theorem int32_var_exact {N k c x : Int} (hc : 0 ≤ c) (hck : c < k) (hx : 0 ≤ x) (hxN : x < N)
    (hfit : N * k ≤ 2147483647) : int32 (int32 (c * N) + x) = c * N + x := by
  have hr := var_range hc hck hx hxN
  have hprod : 0 ≤ c * N := mul_nonneg hc (by omega)
  rw [int32_of_fits (z := c * N) (by omega) (by omega)]
  exact int32_of_fits (by omega) (by omega)

theorem Coloring.getNodeHasColorVarInt32_exact (self : Coloring) {node color : Int}
    (h0 : 0 ≤ node) (h1 : node < self.m_graph.m_nNumberOfNodes)
    (hc0 : 0 ≤ color) (hc1 : color < self.m_nNumberOfColors)
    (hfit : self.m_graph.m_nNumberOfNodes * self.m_nNumberOfColors ≤ 2147483647) :
    self.getNodeHasColorVarInt32 node color =
      .ok (color * self.m_graph.m_nNumberOfNodes + node) := by
  simp [Coloring.getNodeHasColorVarInt32, Graph.getNumberOfNodes, h1, hc1,
    int32_var_exact hc0 hc1 h0 h1 hfit]

theorem Php.pigeonVarInt32_exact {n i j : Int} (hi0 : 0 ≤ i) (hi1 : i ≤ n)
    (hj0 : 0 ≤ j) (hj1 : j < n) (hfit : n * (n + 1) ≤ 2147483647) :
    Php.pigeonVarInt32 n i j = n * i + j := by
  have := @int32_var_exact n (n + 1) i j hi0 (by omega) hj0 hj1 hfit
  unfold Php.pigeonVarInt32
  rw [mul_comm n i]
  exact this

/-! ## The claims -/

/-- C1 (the code departs from the claim): for the graph with 2 nodes and the single
edge `(0,1)` and `k = 1`, `isColorable` succeeds with verdict `true` on a
satisfiable clause set, although the graph has no proper 1-coloring. -/
theorem C1_single_edge_one_color_reported_colorable :
    ∃ g r, Graph.build 2 [(0, 1)] = .ok g ∧ (Coloring.new g 1).isColorable = .ok r ∧
      r.1 = true ∧ Satisfiable r.2.m_solver.clauses ∧ ¬ ∃ col, g.ProperColoring 1 col := by
  refine ⟨⟨2, [[1], []]⟩,
    (true, ⟨⟨2, [[1], []]⟩, 1, ⟨2, [[mkLit 0 false], [mkLit 1 false]]⟩⟩), rfl, rfl, rfl,
    ⟨fun _ => true, by decide⟩, ?_⟩
  rintro ⟨col, hrange, hedge⟩
  have h0 := hrange 0 (by decide) (by decide)
  have h1 := hrange 1 (by decide) (by decide)
  have he : Graph.hasEdge ⟨2, [[1], []]⟩ 0 1 := ⟨by decide, by decide⟩
  have := hedge 0 1 he
  omega

/-- C3: for every graph built through `addEdge`, every number of colors, every
node `0 .. nodeCount-1` and every assignment satisfying the clauses that
`isColorable` assembles, exactly one color `c` in `0 .. k-1` has the variable
`getNodeHasColorVar(node, c)` true. -/
theorem C3_exactly_one_color_per_node (n : Int) (edges : List (Int × Int)) (g : Graph)
    (k : Int) (hg : Graph.build n edges = .ok g) :
    ∃ r, (Coloring.new g k).isColorable = .ok r ∧
      ∀ a : Int → Bool, satisfies a r.2.m_solver.clauses = true →
        ∀ node : Int, 0 ≤ node → node < g.getNumberOfNodes →
          ∃! c : Int, (0 ≤ c ∧ c < k) ∧
            ∃ v, (Coloring.new g k).getNodeHasColorVar node c = .ok v ∧ a v = true := by
  refine ⟨_, Coloring.isColorable_ok hg k, ?_⟩
  intro a ha node h0 h1
  obtain ⟨c, ⟨hc, hac⟩, huniq⟩ := exactly_one_of_satisfies ha h0 h1
  have hvar : ∀ d, d < k → (Coloring.new g k).getNodeHasColorVar node d =
      .ok (d * g.m_nNumberOfNodes + node) := by
    intro d hd
    rw [Coloring.new_eq]
    exact Coloring.getNodeHasColorVar_ok _ h1 hd
  refine ⟨c, ⟨hc, _, hvar c hc.2, hac⟩, ?_⟩
  rintro d ⟨hd, v, hv, hav⟩
  rw [hvar d hd.2] at hv
  injection hv with hv
  subst hv
  exact huniq d ⟨hd, hav⟩

/-- Witness of C3: the single edge `(0,1)`, two colors, node 0 colored 0 and node 1
colored 1. -/
theorem C3_exactly_one_color_per_node_witness :
    ∃! c : Int, (0 ≤ c ∧ c < 2) ∧
      ∃ v, (Coloring.new ⟨2, [[1], []]⟩ 2).getNodeHasColorVar 0 c = .ok v ∧
        (fun x : Int => decide (x = 0 ∨ x = 3)) v = true := by
  obtain ⟨r, hr, H⟩ := C3_exactly_one_color_per_node 2 [(0, 1)] ⟨2, [[1], []]⟩ 2 rfl
  have hr0 : (Coloring.new ⟨2, [[1], []]⟩ 2).isColorable =
      .ok (true, ⟨⟨2, [[1], []]⟩, 2, ⟨4,
        [[mkLit 0 false, mkLit 2 false], [mkLit 0 true, mkLit 2 true],
         [mkLit 0 true, mkLit 1 true],
         [mkLit 1 false, mkLit 3 false], [mkLit 1 true, mkLit 3 true]]⟩⟩) := by rfl
  rw [hr0] at hr
  injection hr with hr
  subst hr
  exact H _ (by decide) 0 (by decide) (by decide)

/-- C4 (the code departs from the claim): for the graph with the single edge `(0,1)`
and `k = 1`, the assignment making every variable true satisfies the clauses that
`isColorable` assembles, and it makes the color-0 variables of both endpoints of
the stored edge `(0,1)` true. -/
theorem C4_edge_endpoints_share_last_color :
    ∃ g r, Graph.build 2 [(0, 1)] = .ok g ∧ (Coloring.new g 1).isColorable = .ok r ∧
      satisfies (fun _ => true) r.2.m_solver.clauses = true ∧ g.hasEdge 0 1 ∧
      ∃ v w, (Coloring.new g 1).getNodeHasColorVar 0 0 = .ok v ∧
        (Coloring.new g 1).getNodeHasColorVar 1 0 = .ok w ∧
        (fun _ : Int => true) v = true ∧ (fun _ : Int => true) w = true := by
  exact ⟨⟨2, [[1], []]⟩,
    (true, ⟨⟨2, [[1], []]⟩, 1, ⟨2, [[mkLit 0 false], [mkLit 1 false]]⟩⟩), rfl, rfl,
    by decide, ⟨by decide, by decide⟩, 0, 1, rfl, rfl, rfl, rfl⟩

/-- C5 (the code departs from the claim): for the graph with the single edge `(0,1)`
and `k = 2`, the clauses that `isColorable` assembles have three satisfying
assignments over the 4 variables, not two: besides the two proper colorings, the
one giving both nodes color 1 (variables 2 and 3 true). -/
theorem C5_single_edge_two_colors_three_models :
    ∃ g r, Graph.build 2 [(0, 1)] = .ok g ∧ (Coloring.new g 2).isColorable = .ok r ∧
      r.1 = true ∧
      ∀ a : Int → Bool, satisfies a r.2.m_solver.clauses = true ↔
        (a 0 = true ∧ a 1 = false ∧ a 2 = false ∧ a 3 = true) ∨
        (a 0 = false ∧ a 1 = true ∧ a 2 = true ∧ a 3 = false) ∨
        (a 0 = false ∧ a 1 = false ∧ a 2 = true ∧ a 3 = true) := by
  refine ⟨⟨2, [[1], []]⟩,
    (true, ⟨⟨2, [[1], []]⟩, 2, ⟨4,
        [[mkLit 0 false, mkLit 2 false], [mkLit 0 true, mkLit 2 true],
         [mkLit 0 true, mkLit 1 true],
         [mkLit 1 false, mkLit 3 false], [mkLit 1 true, mkLit 3 true]]⟩⟩), rfl, rfl, rfl, ?_⟩
  intro a
  simp only [satisfies, clauseHolds, Lit.holds, mkLit, List.all_cons, List.any_cons,
    List.all_nil, List.any_nil]
  cases a 0 <;> cases a 1 <;> cases a 2 <;> cases a 3 <;> decide

/-- C6 (counterexample): with `nodeCount = k = 46341` the pair node 46340, color 46340
is valid, yet the id computed for it in 32-bit `int` is `-2147479016`, outside
`0 .. nodeCount*k - 1` and different from `color * nodeCount + node`; the pigeonhole
id of pigeon 46340 and hole 46340 with `n = 46341` is the same negative number. -/
theorem C6_id_overflows_at_46341 :
    (∃ g v, Graph.build 46341 [] = .ok g ∧
      (Coloring.new g 46341).getNodeHasColorVarInt32 46340 46340 = .ok v ∧
      v = -2147479016 ∧ ¬ (0 ≤ v ∧ v < g.getNumberOfNodes * 46341) ∧
      v ≠ 46340 * g.getNumberOfNodes + 46340) ∧
    (Php.pigeonVarInt32 46341 46340 46340 = -2147479016 ∧
      ¬ (0 ≤ Php.pigeonVarInt32 46341 46340 46340)) :=
  ⟨⟨⟨46341, resizeRows [] (46341 : Int).toNat⟩, -2147479016, rfl,
    (by
      have hv : int32 (int32 (46340 * 46341) + 46340) = -2147479016 := by decide
      simp only [Coloring.getNodeHasColorVarInt32, Coloring.new, Graph.getNumberOfNodes]
      rw [hv, if_neg (by decide)]), rfl,
    (by decide), (by decide)⟩, (by decide), (by decide)⟩

/-- C6 (amended): for `nodeCount >= 0` and `nodeCount*k <= 2^31 - 1`, the id that
`getNodeHasColorVar(node, color)` computes in 32-bit `int` is `color * nodeCount + node`
on the pairs with `0 <= node < nodeCount` and `0 <= color < k` (no operation wraps,
and it is the id of the unbounded reading), it lies in `0 .. nodeCount*k - 1`, distinct
pairs get distinct ids and every id of that range is reached; for `n >= 0` and
`n*(n+1) <= 2^31 - 1` the pigeonhole id `n*i + j` computed in 32-bit `int` does the
same from the pairs `0 <= i <= n`, `0 <= j < n` onto `0 .. n*(n+1) - 1`. -/
theorem C6_variable_numbering_bijective_within_int (self : Coloring) (n : Int)
    (hnodes : 0 ≤ self.m_graph.getNumberOfNodes)
    (hfit : self.m_graph.getNumberOfNodes * self.m_nNumberOfColors ≤ 2147483647)
    (hn : 0 ≤ n) (hnfit : n * (n + 1) ≤ 2147483647) :
    ((∀ node color : Int, 0 ≤ node → node < self.m_graph.getNumberOfNodes →
        0 ≤ color → color < self.m_nNumberOfColors →
        self.getNodeHasColorVarInt32 node color =
            .ok (color * self.m_graph.getNumberOfNodes + node) ∧
          self.getNodeHasColorVarInt32 node color = self.getNodeHasColorVar node color ∧
          0 ≤ color * self.m_graph.getNumberOfNodes + node ∧
          color * self.m_graph.getNumberOfNodes + node <
            self.m_graph.getNumberOfNodes * self.m_nNumberOfColors) ∧
      (∀ node color node' color' v : Int,
        0 ≤ node → node < self.m_graph.getNumberOfNodes →
        0 ≤ color → color < self.m_nNumberOfColors →
        0 ≤ node' → node' < self.m_graph.getNumberOfNodes →
        0 ≤ color' → color' < self.m_nNumberOfColors →
        self.getNodeHasColorVarInt32 node color = .ok v →
        self.getNodeHasColorVarInt32 node' color' = .ok v → node = node' ∧ color = color') ∧
      (∀ v : Int, 0 ≤ v → v < self.m_graph.getNumberOfNodes * self.m_nNumberOfColors →
        ∃ node color : Int, 0 ≤ node ∧ node < self.m_graph.getNumberOfNodes ∧
          0 ≤ color ∧ color < self.m_nNumberOfColors ∧
          self.getNodeHasColorVarInt32 node color = .ok v)) ∧
    ((∀ i j : Int, 0 ≤ i → i ≤ n → 0 ≤ j → j < n →
        Php.pigeonVarInt32 n i j = n * i + j ∧
          Php.pigeonVarInt32 n i j = Php.pigeonVar n i j ∧
          0 ≤ Php.pigeonVarInt32 n i j ∧ Php.pigeonVarInt32 n i j < n * (n + 1)) ∧
      (∀ i j i' j' : Int, 0 ≤ i → i ≤ n → 0 ≤ j → j < n → 0 ≤ i' → i' ≤ n → 0 ≤ j' → j' < n →
        Php.pigeonVarInt32 n i j = Php.pigeonVarInt32 n i' j' → i = i' ∧ j = j') ∧
      (∀ v : Int, 0 ≤ v → v < n * (n + 1) →
        ∃ i j : Int, 0 ≤ i ∧ i ≤ n ∧ 0 ≤ j ∧ j < n ∧ Php.pigeonVarInt32 n i j = v)) := by
  simp only [Graph.getNumberOfNodes] at hnodes hfit ⊢
  have hphp : ∀ i j : Int, 0 ≤ i → i ≤ n → 0 ≤ j → j < n →
      Php.pigeonVarInt32 n i j = n * i + j :=
    fun i j a b c d => Php.pigeonVarInt32_exact a b c d hnfit
  refine ⟨⟨?_, ?_, ?_⟩, ?_, ?_, ?_⟩
  · intro node color h0 h1 h2 h3
    rw [self.getNodeHasColorVarInt32_exact h0 h1 h2 h3 hfit]
    exact ⟨rfl, (self.getNodeHasColorVar_ok h1 h3).symm, var_range h2 h3 h0 h1⟩
  · intro node color node' color' v h0 h1 h2 h3 h0' h1' h2' h3' e e'
    rw [self.getNodeHasColorVarInt32_exact h0 h1 h2 h3 hfit] at e
    rw [self.getNodeHasColorVarInt32_exact h0' h1' h2' h3' hfit] at e'
    injection e with e
    injection e' with e'
    exact var_inj h0 h1 h0' h1' (e.trans e'.symm)
  · intro v h0 h1
    obtain ⟨c, x, hc0, hc1, hx0, hx1, e⟩ := var_surj hnodes h0 h1
    exact ⟨x, c, hx0, hx1, hc0, hc1,
      by rw [self.getNodeHasColorVarInt32_exact hx0 hx1 hc0 hc1 hfit, e]⟩
  · intro i j hi0 hi1 hj0 hj1
    have hr := @var_range n (n + 1) i j hi0 (by omega) hj0 hj1
    rw [hphp i j hi0 hi1 hj0 hj1]
    refine ⟨rfl, rfl, ?_, ?_⟩
    · rw [mul_comm n i]; exact hr.1
    · rw [mul_comm n i]; exact hr.2
  · intro i j i' j' hi0 hi1 hj0 hj1 hi0' hi1' hj0' hj1' e
    rw [hphp i j hi0 hi1 hj0 hj1, hphp i' j' hi0' hi1' hj0' hj1',
      mul_comm n i, mul_comm n i'] at e
    exact (var_inj hj0 hj1 hj0' hj1' e).symm
  · intro v h0 h1
    obtain ⟨c, x, hc0, hc1, hx0, hx1, e⟩ := var_surj hn h0 h1
    exact ⟨c, x, hc0, by omega, hx0, hx1,
      by rw [hphp c x hc0 (by omega) hx0 hx1, mul_comm]; exact e⟩

/-- Witness of C6 (amended): two nodes, two colors, two holes. -/
theorem C6_variable_numbering_bijective_within_int_witness :
    (Coloring.new ⟨2, [[1], []]⟩ 2).getNodeHasColorVarInt32 1 1 = .ok (1 * 2 + 1) ∧
      (Coloring.new ⟨2, [[1], []]⟩ 2).getNodeHasColorVarInt32 1 1 =
        (Coloring.new ⟨2, [[1], []]⟩ 2).getNodeHasColorVar 1 1 ∧
      (0 : Int) ≤ 1 * 2 + 1 ∧ (1 * 2 + 1 : Int) < 2 * 2 :=
  (C6_variable_numbering_bijective_within_int (Coloring.new ⟨2, [[1], []]⟩ 2) 2
    (by decide) (by decide) (by decide) (by decide)).1.1 1 1
    (by decide) (by decide) (by decide) (by decide)

/-- C7 (counterexample): with `nodeCount = k = 46341`, `addOneColorConstraints(46340)`
passes its assertion and its first loop reaches color 46340, where the id computed in
32-bit `int` for the literal is negative, so the literal refers to no declared
variable; with `n = 46341` the driver's loops reach pigeon 46340 and hole 46340, whose
literal id is negative as well. -/
theorem C7_literal_id_leaves_declared_range :
    (∃ g v, Graph.build 46341 [] = .ok g ∧ (46340 : Int) < g.getNumberOfNodes ∧
      (46340 : Int) ∈ forRange 0 (Coloring.new g 46341).m_nNumberOfColors ∧
      (Coloring.new g 46341).getNodeHasColorVarInt32 46340 46340 = .ok v ∧ v < 0) ∧
    ((46340 : Int) ∈ forRange 0 (46341 + 1) ∧ (46340 : Int) ∈ forRange 0 46341 ∧
      Php.pigeonVarInt32 46341 46340 46340 < 0) :=
  ⟨⟨⟨46341, resizeRows [] (46341 : Int).toNat⟩, -2147479016, rfl, (by decide),
    mem_forRange.mpr ⟨by decide, by decide⟩,
    (by
      have hv : int32 (int32 (46340 * 46341) + 46340) = -2147479016 := by decide
      simp only [Coloring.getNodeHasColorVarInt32, Coloring.new, Graph.getNumberOfNodes]
      rw [hv, if_neg (by decide)]),
    (by decide)⟩,
    mem_forRange.mpr ⟨by decide, by decide⟩, mem_forRange.mpr ⟨by decide, by decide⟩,
    (by decide)⟩

/-- C7 (amended): for every graph built through `addEdge` and every `k >= 0` with
`nodeCount*k <= 2^31 - 1`, the `Coloring` constructor declares exactly `nodeCount*k`
variables before any clause exists, `isColorable` declares no further one, every
literal of every clause it adds has an id in `0 .. nodeCount*k - 1`, and on every node
and color of the encoding the id computed in 32-bit `int` is the id of the literal;
for every `n >= 1` with `n*(n+1) <= 2^31 - 1` the pigeonhole driver declares exactly
`n*(n+1)` variables before any clause exists, every literal of every clause it adds
has an id in `0 .. n*(n+1) - 1`, and on every pigeon and hole the id computed in
32-bit `int` is the id of the literal. -/
theorem C7_literals_refer_to_declared_variables_within_int (n : Int)
    (edges : List (Int × Int)) (g : Graph) (k m : Int)
    (hg : Graph.build n edges = .ok g) (hk : 0 ≤ k) (hm : 1 ≤ m)
    (hfit : g.getNumberOfNodes * k ≤ 2147483647) (hmfit : m * (m + 1) ≤ 2147483647) :
    (((Coloring.new g k).m_solver.nVars : Int) = g.getNumberOfNodes * k ∧
      (Coloring.new g k).m_solver.clauses = [] ∧
      (∃ r, (Coloring.new g k).isColorable = .ok r ∧
        r.2.m_solver.nVars = (Coloring.new g k).m_solver.nVars ∧
        ∀ cl ∈ r.2.m_solver.clauses, ∀ l ∈ cl,
          0 ≤ l.x ∧ l.x < ((Coloring.new g k).m_solver.nVars : Int)) ∧
      ∀ node color : Int, 0 ≤ node → node < g.getNumberOfNodes → 0 ≤ color → color < k →
        (Coloring.new g k).getNodeHasColorVarInt32 node color =
          (Coloring.new g k).getNodeHasColorVar node color) ∧
    (((Php.declareVars m Solver.empty).nVars : Int) = m * (m + 1) ∧
      (Php.declareVars m Solver.empty).clauses = [] ∧
      (∃ s, (Php.main 2 m).solver = some s ∧
        s.nVars = (Php.declareVars m Solver.empty).nVars ∧
        ∀ cl ∈ s.clauses, ∀ l ∈ cl,
          0 ≤ l.x ∧ l.x < ((Php.declareVars m Solver.empty).nVars : Int)) ∧
      ∀ i j : Int, 0 ≤ i → i ≤ m → 0 ≤ j → j < m →
        Php.pigeonVarInt32 m i j = Php.pigeonVar m i j) := by
  obtain ⟨hwf, -⟩ := Graph.build_ok hg
  have hN := hwf.nonneg
  simp only [Graph.getNumberOfNodes] at hfit ⊢
  have hcount : ((k.toNat * g.m_nNumberOfNodes.toNat : Nat) : Int) = g.m_nNumberOfNodes * k := by
    rw [Nat.cast_mul, Int.toNat_of_nonneg hk, Int.toNat_of_nonneg hN, mul_comm]
  have hcount' : (((m + 1).toNat * m.toNat : Nat) : Int) = m * (m + 1) := by
    rw [Nat.cast_mul, Int.toNat_of_nonneg (by omega : 0 ≤ m + 1),
      Int.toNat_of_nonneg (by omega : 0 ≤ m), mul_comm]
  refine ⟨⟨?_, ?_, ⟨_, Coloring.isColorable_ok hg k, ?_, ?_⟩, ?_⟩, ?_, ?_, ?_, ?_⟩
  · rw [Coloring.new_eq]; exact hcount
  · rw [Coloring.new_eq]
  · rw [Coloring.new_eq]
  · intro cl hcl l hl
    rw [Coloring.new_eq]
    show 0 ≤ l.x ∧ l.x < ((k.toNat * g.m_nNumberOfNodes.toNat : Nat) : Int)
    rw [hcount]
    exact allClauses_lit_range hwf hcl hl
  · intro node color h0 h1 hc0 hc1
    rw [Coloring.new_eq]
    rw [Coloring.getNodeHasColorVarInt32_exact _ h0 h1 hc0 hc1 hfit,
      Coloring.getNodeHasColorVar_ok _ h1 hc1]
  · rw [Php.declareVars_eq]
    simpa [Solver.empty] using hcount'
  · rw [Php.declareVars_eq]; rfl
  · rw [Php.main_eq hm]
    refine ⟨_, rfl, ?_, ?_⟩
    · rw [Php.declareVars_eq]; simp [Solver.empty]
    · intro cl hcl l hl
      rw [Php.declareVars_eq]
      have := Php.driverClauses_lit_range hcl hl
      simp only [Solver.empty, Nat.zero_add]
      rw [hcount']
      exact this
  · intro i j hi0 hi1 hj0 hj1
    rw [Php.pigeonVarInt32_exact hi0 hi1 hj0 hj1 hmfit]
    rfl

/-- Witness of C7 (amended): the single edge `(0,1)` with two colors, and two holes. -/
theorem C7_literals_refer_to_declared_variables_within_int_witness :
    (((Coloring.new ⟨2, [[1], []]⟩ 2).m_solver.nVars : Int) =
        Graph.getNumberOfNodes ⟨2, [[1], []]⟩ * 2 ∧
      (Coloring.new ⟨2, [[1], []]⟩ 2).m_solver.clauses = [] ∧
      (∃ r, (Coloring.new ⟨2, [[1], []]⟩ 2).isColorable = .ok r ∧
        r.2.m_solver.nVars = (Coloring.new ⟨2, [[1], []]⟩ 2).m_solver.nVars ∧
        ∀ cl ∈ r.2.m_solver.clauses, ∀ l ∈ cl,
          0 ≤ l.x ∧ l.x < ((Coloring.new ⟨2, [[1], []]⟩ 2).m_solver.nVars : Int)) ∧
      ∀ node color : Int, 0 ≤ node → node < Graph.getNumberOfNodes ⟨2, [[1], []]⟩ →
        0 ≤ color → color < 2 →
        (Coloring.new ⟨2, [[1], []]⟩ 2).getNodeHasColorVarInt32 node color =
          (Coloring.new ⟨2, [[1], []]⟩ 2).getNodeHasColorVar node color) ∧
    (((Php.declareVars 2 Solver.empty).nVars : Int) = 2 * (2 + 1) ∧
      (Php.declareVars 2 Solver.empty).clauses = [] ∧
      (∃ s, (Php.main 2 2).solver = some s ∧
        s.nVars = (Php.declareVars 2 Solver.empty).nVars ∧
        ∀ cl ∈ s.clauses, ∀ l ∈ cl,
          0 ≤ l.x ∧ l.x < ((Php.declareVars 2 Solver.empty).nVars : Int)) ∧
      ∀ i j : Int, 0 ≤ i → i ≤ 2 → 0 ≤ j → j < 2 →
        Php.pigeonVarInt32 2 i j = Php.pigeonVar 2 i j) :=
  C7_literals_refer_to_declared_variables_within_int 2 [(0, 1)] ⟨2, [[1], []]⟩ 2 2 rfl
    (by decide) (by decide) (by decide) (by decide)

/-- C8: for every node below `nodeCount` and every `k >= 0`,
`addOneColorConstraints(node)` succeeds and appends to the clauses of the solver
exactly `1 + k*(k-1)/2` clauses: first the clause of the `k` positive literals of
`getNodeHasColorVar(node, c)` for `c = 0 .. k-1`, then one binary clause negating
`getNodeHasColorVar(node, c)` and `getNodeHasColorVar(node, c')` for each pair
`0 <= c < c' < k`, each pair once, and nothing else. -/
theorem C8_one_color_constraints (self : Coloring) (node : Int)
    (hnode : node < self.m_graph.getNumberOfNodes) (hk : 0 ≤ self.m_nNumberOfColors) :
    ∃ (var : Int → Int) (pairs : List (Int × Int)),
      (∀ c, 0 ≤ c → c < self.m_nNumberOfColors →
        self.getNodeHasColorVar node c = .ok (var c)) ∧
      pairs.Nodup ∧
      (∀ c c', (c, c') ∈ pairs ↔ 0 ≤ c ∧ c < c' ∧ c' < self.m_nNumberOfColors) ∧
      self.addOneColorConstraints node =
        .ok { self with m_solver := { self.m_solver with clauses :=
          self.m_solver.clauses ++
            ((forRange 0 self.m_nNumberOfColors).map (fun c => mkLit (var c) false) ::
              pairs.map (fun p => [mkLit (var p.1) true, mkLit (var p.2) true])) } } ∧
      ((1 + pairs.length : Nat) : Int) =
        1 + self.m_nNumberOfColors * (self.m_nNumberOfColors - 1) / 2 := by
  simp only [Graph.getNumberOfNodes] at hnode
  refine ⟨fun c => c * self.m_graph.m_nNumberOfNodes + node,
    pairLoop (self.m_nNumberOfColors - 1) self.m_nNumberOfColors, ?_, pairLoop_nodup _ _,
    ?_, ?_, ?_⟩
  · intro c _ hc
    exact self.getNodeHasColorVar_ok hnode hc
  · intro c c'
    rw [mem_pairLoop]
    constructor
    · rintro ⟨h1, h2, h3⟩; exact ⟨h1.1, h2, h3⟩
    · rintro ⟨h1, h2, h3⟩; exact ⟨⟨h1, by omega⟩, h2, h3⟩
  · rw [self.addOneColorConstraints_ok hnode,
      map_pairLoop _ _ (fun c c' => [mkLit (c * self.m_graph.m_nNumberOfNodes + node) true,
        mkLit (c' * self.m_graph.m_nNumberOfNodes + node) true])]
    rfl
  · rcases eq_or_lt_of_le hk with h0 | hpos
    · rw [← h0]
      simp [pairLoop, forRange]
    · obtain ⟨m, hm⟩ : ∃ m : Nat, self.m_nNumberOfColors = (m : Int) + 1 :=
        ⟨(self.m_nNumberOfColors - 1).toNat, by omega⟩
      rw [hm]
      have hlen := length_pairLoop_succ m
      rw [show (m : Int) + 1 - 1 = m by omega]
      have hprod : ((m : Int) + 1) * m = ((pairLoop (m : Int) ((m : Int) + 1)).length : Int) * 2 := by
        rw [hlen]; ring
      rw [hprod, Int.mul_ediv_cancel _ (by decide : (2 : Int) ≠ 0)]
      push_cast
      ring

/-- Witness of C8: node 0 of a 2-node graph with three colors. -/
theorem C8_one_color_constraints_witness :
    ∃ (var : Int → Int) (pairs : List (Int × Int)),
      (∀ c, 0 ≤ c → c < (Coloring.new ⟨2, [[1], []]⟩ 3).m_nNumberOfColors →
        (Coloring.new ⟨2, [[1], []]⟩ 3).getNodeHasColorVar 0 c = .ok (var c)) ∧
      pairs.Nodup ∧
      (∀ c c', (c, c') ∈ pairs ↔
        0 ≤ c ∧ c < c' ∧ c' < (Coloring.new ⟨2, [[1], []]⟩ 3).m_nNumberOfColors) ∧
      (Coloring.new ⟨2, [[1], []]⟩ 3).addOneColorConstraints 0 =
        .ok { Coloring.new ⟨2, [[1], []]⟩ 3 with m_solver :=
          { (Coloring.new ⟨2, [[1], []]⟩ 3).m_solver with clauses :=
            (Coloring.new ⟨2, [[1], []]⟩ 3).m_solver.clauses ++
              ((forRange 0 (Coloring.new ⟨2, [[1], []]⟩ 3).m_nNumberOfColors).map
                  (fun c => mkLit (var c) false) ::
                pairs.map (fun p => [mkLit (var p.1) true, mkLit (var p.2) true])) } } ∧
      ((1 + pairs.length : Nat) : Int) =
        1 + (Coloring.new ⟨2, [[1], []]⟩ 3).m_nNumberOfColors *
          ((Coloring.new ⟨2, [[1], []]⟩ 3).m_nNumberOfColors - 1) / 2 :=
  C8_one_color_constraints (Coloring.new ⟨2, [[1], []]⟩ 3) 0 (by decide) (by decide)

/-- C9 (the code departs from the claim): with `k = 1` and the nodes `0 <= 1` of a
2-node graph, `addEdgeColoringConstraints(0, 1)` returns without adding any clause;
with `k = 2` it adds the clause of color 0 only. -/
theorem C9_edge_constraints_omit_last_color :
    (Coloring.new ⟨2, [[1], []]⟩ 1).addEdgeColoringConstraints 0 1 =
        .ok (Coloring.new ⟨2, [[1], []]⟩ 1) ∧
      (Coloring.new ⟨2, [[1], []]⟩ 1).m_solver.clauses = [] ∧
      (Coloring.new ⟨2, [[1], []]⟩ 2).addEdgeColoringConstraints 0 1 =
        .ok ⟨⟨2, [[1], []]⟩, 2, ⟨4, [[mkLit 0 true, mkLit 1 true]]⟩⟩ :=
  ⟨rfl, rfl, rfl⟩

/-- C12 (the code departs from the claim): on the graph with 2 nodes the calls
`addEdge(-1, 0)` and `addEdge(-2, 0)` have an index outside `0 .. 1`, yet neither
assertion fires: both conditions `n1 < 2 && n2 < 2` and `n1 <= n2` hold, and the
call goes on to index the table outside its storage, or to a `resize` that throws. -/
theorem C12_negative_index_passes_assertions :
    ∃ g, Graph.new 2 = .ok g ∧
      g.addEdge (-1) 0 = .error Fault.outOfBounds ∧
      g.addEdge (-2) 0 = .error Fault.lengthError ∧
      g.addEdge (-1) 0 ≠ .error Fault.assertion ∧
      g.addEdge (-2) 0 ≠ .error Fault.assertion :=
  ⟨⟨2, [[], []]⟩, rfl, rfl, rfl, (by intro h; cases h), (by intro h; cases h)⟩

/-- C13: for every graph built through `addEdge` and every `0 <= a <= b < nodeCount`,
`addEdge(a, b)` succeeds; afterwards `getEdgesForNode(a)` is the previous list with
`b` appended at the end, `getEdgesForNode(m)` is as before for every other `m`, and
`getNumberOfNodes()` is as before.  Hence, in a graph built from a list of `addEdge`
calls, `getEdgesForNode(node)` is the list of second arguments of the calls whose
first argument is `node`, in call order. -/
theorem C13_addEdge_appends_to_row (n : Int) (edges : List (Int × Int)) (g : Graph)
    (a b : Int) (hg : Graph.build n edges = .ok g)
    (ha : 0 ≤ a) (hab : a ≤ b) (hb : b < g.getNumberOfNodes) :
    (∃ g' old, g.addEdge a b = .ok g' ∧ g.getEdgesForNode a = .ok old ∧
      g'.getEdgesForNode a = .ok (old ++ [b]) ∧
      (∀ m, m ≠ a → g'.getEdgesForNode m = g.getEdgesForNode m) ∧
      g'.getNumberOfNodes = g.getNumberOfNodes) ∧
    (∀ node, 0 ≤ node → node < g.getNumberOfNodes →
      g.getEdgesForNode node =
        .ok ((edges.filter (fun e => decide (e.1 = node))).map (fun e => e.2))) := by
  obtain ⟨hwf, hn⟩ := Graph.build_ok hg
  simp only [Graph.getNumberOfNodes] at hb ⊢
  have ha1 : a < g.m_nNumberOfNodes := by omega
  constructor
  · have hadd := Graph.addEdge_eq hwf ha hab hb
    obtain ⟨hwf', -⟩ := Graph.addEdge_ok hwf hadd
    refine ⟨_, _, hadd, Graph.getEdgesForNode_ok hwf ha ha1, ?_, ?_, rfl⟩
    · rw [Graph.getEdgesForNode_ok hwf' ha ha1]
      have hlen : a.toNat < g.m_graph.length := by rw [hwf.rows]; omega
      show Except.ok ((g.m_graph.modify (fun row => row ++ [b]) a.toNat).getD a.toNat []) = _
      rw [getD_modify_same _ _ _ hlen]
    · intro m hm
      exact Graph.getEdgesForNode_modify _ ha hm
  · intro node h0 h1
    rw [Graph.getEdgesForNode_ok hwf h0 h1]
    unfold Graph.build at hg
    cases hnew : Graph.new n with
    | error e => rw [hnew] at hg; cases hg
    | ok g0 =>
      rw [hnew, ok_bind] at hg
      obtain ⟨hwf0, hn0⟩ := Graph.new_ok hnew
      rw [Graph.foldlM_addEdge_rows hwf0 hg h0]
      have hempty : g0.m_graph.getD node.toNat [] = [] := by
        by_contra hne
        obtain ⟨x, hx⟩ := List.exists_mem_of_ne_nil _ hne
        have hord := hwf0.ordered node x h0 hx
        unfold Graph.new at hnew
        split at hnew
        · cases hnew
        · injection hnew with hnew
          subst hnew
          simp only [resizeRows, List.take_nil, List.nil_append, List.length_nil,
            Nat.sub_zero] at hx
          rw [List.getD_eq_getElem?_getD] at hx
          by_cases hlt : node.toNat < n.toNat
          · simp [List.getElem?_replicate, hlt] at hx
          · simp [List.getElem?_replicate, hlt] at hx
      rw [hempty, List.nil_append]

/-- Witness of C13: `addEdge(0, 1)` on the 2-node graph that already stores the edge
`(0, 1)`. -/
theorem C13_addEdge_appends_to_row_witness :
    (∃ g' old, Graph.addEdge ⟨2, [[1], []]⟩ 0 1 = .ok g' ∧
      Graph.getEdgesForNode ⟨2, [[1], []]⟩ 0 = .ok old ∧
      g'.getEdgesForNode 0 = .ok (old ++ [1]) ∧
      (∀ m, m ≠ 0 → g'.getEdgesForNode m = Graph.getEdgesForNode ⟨2, [[1], []]⟩ m) ∧
      g'.getNumberOfNodes = Graph.getNumberOfNodes ⟨2, [[1], []]⟩) ∧
    (∀ node, 0 ≤ node → node < Graph.getNumberOfNodes ⟨2, [[1], []]⟩ →
      Graph.getEdgesForNode ⟨2, [[1], []]⟩ node =
        .ok (([((0 : Int), (1 : Int))].filter (fun e => decide (e.1 = node))).map
          (fun e => e.2))) :=
  C13_addEdge_appends_to_row 2 [(0, 1)] ⟨2, [[1], []]⟩ 0 1 rfl (by decide) (by decide)
    (by decide)

/-- C14: on the graph with `nodeCount = 0` (to which no `addEdge` call can add an
edge) and for every `k`, `isColorable` adds no clause, the empty clause list is
satisfiable, and the verdict is `true`. -/
theorem C14_empty_graph_colorable (k : Int) :
    ∃ g r, Graph.build 0 [] = .ok g ∧ (∀ a b g', g.addEdge a b ≠ .ok g') ∧
      (Coloring.new g k).isColorable = .ok r ∧
      r.2.m_solver.clauses = [] ∧ Satisfiable r.2.m_solver.clauses ∧ r.1 = true := by
  have hb : Graph.build 0 [] = .ok ⟨0, []⟩ := rfl
  have hcl : allClauses ⟨0, []⟩ k = [] := by simp [allClauses, forRange]
  refine ⟨⟨0, []⟩, _, hb, ?_, Coloring.isColorable_ok hb k, hcl, ?_, ?_⟩
  · intro a b g' h
    obtain ⟨-, -, h0, h1, h2, -⟩ := Graph.addEdge_ok (Graph.build_ok hb).1 h
    simp only at h2
    omega
  · show Satisfiable (allClauses ⟨0, []⟩ k)
    rw [hcl]
    exact ⟨fun _ => false, rfl⟩
  · show (Solver.mk (k.toNat * (0 : Int).toNat) (allClauses ⟨0, []⟩ k)).solve = true
    rw [hcl]
    simp [Solver.solve, allTables, satisfies]

/-- C15: for every graph built through `addEdge` with `nodeCount >= 1` and `k = 0`,
`addOneColorConstraints(node)` adds the empty clause and nothing else, the clauses
`isColorable` assembles are `nodeCount` copies of the empty clause (the edge
constraints add none), and no assignment satisfies them: the verdict is `false`. -/
theorem C15_zero_colors_unsatisfiable (n : Int) (edges : List (Int × Int)) (g : Graph)
    (hg : Graph.build n edges = .ok g) (hn : 1 ≤ n) :
    (∀ (s : Solver) (node : Int), node < g.getNumberOfNodes →
      (Coloring.mk g 0 s).addOneColorConstraints node = .ok ⟨g, 0, s.addClause []⟩) ∧
    ∃ r, (Coloring.new g 0).isColorable = .ok r ∧
      r.2.m_solver.clauses = List.replicate n.toNat [] ∧
      ¬ Satisfiable r.2.m_solver.clauses ∧ r.1 = false := by
  obtain ⟨hwf, hnodes⟩ := Graph.build_ok hg
  have hmem : ([] : List Lit) ∈ allClauses g 0 := by
    rw [allClauses_zero, hnodes]
    exact List.mem_replicate.mpr ⟨by omega, rfl⟩
  have hunsat : ¬ Satisfiable (allClauses g 0) := by
    rintro ⟨a, ha⟩
    exact not_satisfies_of_empty_mem hmem a ha
  constructor
  · intro s node hnode
    rw [Coloring.addOneColorConstraints_ok _ hnode]
    show Except.ok (Coloring.extend ⟨g, 0, s⟩ (oneColorClauses g.m_nNumberOfNodes 0 node)) = _
    rw [oneColorClauses_zero]
    rfl
  · refine ⟨_, Coloring.isColorable_ok hg 0, ?_, hunsat, ?_⟩
    · show allClauses g 0 = _
      rw [allClauses_zero, hnodes]
    · rw [Bool.eq_false_iff]
      intro h
      exact hunsat (Solver.solve_sound h)

/-- Witness of C15: the 2-node graph with the single edge `(0,1)`. -/
theorem C15_zero_colors_unsatisfiable_witness :
    (∀ (s : Solver) (node : Int), node < Graph.getNumberOfNodes ⟨2, [[1], []]⟩ →
      (Coloring.mk ⟨2, [[1], []]⟩ 0 s).addOneColorConstraints node =
        .ok ⟨⟨2, [[1], []]⟩, 0, s.addClause []⟩) ∧
    ∃ r, (Coloring.new ⟨2, [[1], []]⟩ 0).isColorable = .ok r ∧
      r.2.m_solver.clauses = List.replicate (2 : Int).toNat [] ∧
      ¬ Satisfiable r.2.m_solver.clauses ∧ r.1 = false :=
  C15_zero_colors_unsatisfiable 2 [(0, 1)] ⟨2, [[1], []]⟩ rfl (by decide)

/-- C16: when the argument count is not exactly one (`argc != 2`) or the argument is
below 1, the pigeonhole driver exits with status 1 before a solver exists, so no
variable is declared and no clause added, and nothing is printed; for every `n >= 1`
given as the one argument it encodes and returns status 0. -/
theorem C16_driver_rejects_invalid_input :
    (∀ argc arg : Int, argc ≠ 2 ∨ arg < 1 → Php.main argc arg = ⟨1, none, none⟩) ∧
    (∀ n : Int, 1 ≤ n →
      (Php.main 2 n).status = 0 ∧
      ∃ s, (Php.main 2 n).solver = some s ∧ (s.nVars : Int) = n * (n + 1) ∧
        s.clauses = (Php.addHoleClauses n (Php.addPigeonClauses n
          (Php.declareVars n Solver.empty))).clauses) := by
  constructor
  · intro argc arg h
    unfold Php.main
    by_cases h2 : argc = 2
    · have h1 : arg < 1 := by
        rcases h with h | h
        · exact absurd h2 h
        · exact h
      simp [h2, h1]
    · simp [h2]
  · intro n hn
    have h : ¬ n < 1 := by omega
    refine ⟨by simp [Php.main, h], ?_⟩
    refine ⟨_, by simp only [Php.main, h, if_false, ne_eq, not_true_eq_false], ?_, rfl⟩
    rw [Php.addHoleClauses_eq, Php.addPigeonClauses_eq, Php.declareVars_eq]
    simp only [Solver.extend, Solver.empty, Nat.zero_add]
    rw [Nat.cast_mul, Int.toNat_of_nonneg (by omega : 0 ≤ n + 1),
      Int.toNat_of_nonneg (by omega : 0 ≤ n), mul_comm]

/-- Witness of C16: no argument, the argument `0`, and the argument `2`. -/
theorem C16_driver_rejects_invalid_input_witness :
    Php.main 1 0 = ⟨1, none, none⟩ ∧ Php.main 2 0 = ⟨1, none, none⟩ ∧
      (Php.main 2 2).status = 0 :=
  ⟨C16_driver_rejects_invalid_input.1 1 0 (Or.inl (by decide)),
    C16_driver_rejects_invalid_input.1 2 0 (Or.inr (by decide)),
    (C16_driver_rejects_invalid_input.2 2 (by decide)).1⟩

/-- C18: for every graph built through `addEdge` and every `k`, a second call of
`isColorable` on the same object succeeds, leaves in the solver the clause sequence of
the first call followed by the same sequence again, and returns the verdict of the
first call. -/
theorem C18_second_call_duplicates (n : Int) (edges : List (Int × Int)) (g : Graph)
    (k : Int) (hg : Graph.build n edges = .ok g) :
    ∃ r1 r2, (Coloring.new g k).isColorable = .ok r1 ∧ r1.2.isColorable = .ok r2 ∧
      r2.2.m_solver.clauses = r1.2.m_solver.clauses ++ r1.2.m_solver.clauses ∧
      r2.1 = r1.1 := by
  obtain ⟨hwf, -⟩ := Graph.build_ok hg
  have h2 : Coloring.isColorable ⟨g, k, ⟨k.toNat * g.m_nNumberOfNodes.toNat, allClauses g k⟩⟩ =
      .ok ((Solver.mk (k.toNat * g.m_nNumberOfNodes.toNat)
          (allClauses g k ++ allClauses g k)).solve,
        ⟨g, k, ⟨k.toNat * g.m_nNumberOfNodes.toNat, allClauses g k ++ allClauses g k⟩⟩) := by
    unfold Coloring.isColorable
    rw [Coloring.addAllConstraints_ok _ hwf]
    rfl
  exact ⟨_, _, Coloring.isColorable_ok hg k, h2, rfl, Solver.solve_twice _ _⟩

/-- Witness of C18: the single edge `(0,1)` with two colors. -/
theorem C18_second_call_duplicates_witness :
    ∃ r1 r2, (Coloring.new ⟨2, [[1], []]⟩ 2).isColorable = .ok r1 ∧
      r1.2.isColorable = .ok r2 ∧
      r2.2.m_solver.clauses = r1.2.m_solver.clauses ++ r1.2.m_solver.clauses ∧
      r2.1 = r1.1 :=
  C18_second_call_duplicates 2 [(0, 1)] ⟨2, [[1], []]⟩ 2 rfl

/-- C19: in every graph obtained from `Graph(nodeCount)` by `addEdge` calls, every
stored edge `(a, b)` has `a <= b` and `b < nodeCount`, the adjacency table has exactly
`nodeCount` rows, and an edge is stored in both directions only when `a = b`.  A
further call whose assertions hold either extends the graph to one built the same
way, or (negative first argument) stops without producing a graph. -/
theorem C19_graph_invariant (n : Int) (edges : List (Int × Int)) (g : Graph)
    (hg : Graph.build n edges = .ok g) :
    (g.getNumberOfNodes = n ∧ 0 ≤ n ∧
      (∀ a b, g.hasEdge a b → a ≤ b ∧ b < g.getNumberOfNodes) ∧
      (g.m_graph.length : Int) = g.getNumberOfNodes ∧
      (∀ a b, g.hasEdge a b → g.hasEdge b a → a = b)) ∧
    (∀ a b, g.addEdge a b ≠ .error Fault.assertion →
      (∃ g', g.addEdge a b = .ok g' ∧ Graph.build n (edges ++ [(a, b)]) = .ok g') ∨
      (a < 0 ∧ (g.addEdge a b = .error Fault.lengthError ∨
        g.addEdge a b = .error Fault.outOfBounds))) := by
  obtain ⟨hwf, hn⟩ := Graph.build_ok hg
  simp only [Graph.getNumberOfNodes]
  refine ⟨⟨hn, hn ▸ hwf.nonneg, fun a b h => hwf.ordered a b h.1 h.2, ?_, ?_⟩, ?_⟩
  · rw [hwf.rows, Int.toNat_of_nonneg hwf.nonneg]
  · intro a b h1 h2
    have := hwf.ordered a b h1.1 h1.2
    have := hwf.ordered b a h2.1 h2.2
    omega
  · intro a b hne
    rw [Ne, Graph.addEdge_assertion, not_not] at hne
    obtain ⟨h1, h2, h12⟩ := hne
    by_cases ha : a < 0
    · right
      refine ⟨ha, ?_⟩
      rw [Graph.addEdge_fault ha h1 h2 h12]
      by_cases h' : a < -1
      · left; simp [h']
      · right; simp [h']
    · left
      have hadd := Graph.addEdge_eq hwf (not_lt.mp ha) h12 h2
      refine ⟨_, hadd, ?_⟩
      unfold Graph.build at hg ⊢
      cases hnew : Graph.new n with
      | error e => rw [hnew] at hg; cases hg
      | ok g0 =>
        rw [hnew, ok_bind] at hg
        rw [ok_bind]
        rw [List.foldlM_append, hg, ok_bind, List.foldlM_cons, hadd, ok_bind]
        rfl

/-- Witness of C19: the 2-node graph with the single edge `(0,1)`. -/
theorem C19_graph_invariant_witness :
    (Graph.getNumberOfNodes ⟨2, [[1], []]⟩ = 2 ∧ (0 : Int) ≤ 2 ∧
      (∀ a b, Graph.hasEdge ⟨2, [[1], []]⟩ a b →
        a ≤ b ∧ b < Graph.getNumberOfNodes ⟨2, [[1], []]⟩) ∧
      ((Graph.mk 2 [[1], []]).m_graph.length : Int) = Graph.getNumberOfNodes ⟨2, [[1], []]⟩ ∧
      (∀ a b, Graph.hasEdge ⟨2, [[1], []]⟩ a b → Graph.hasEdge ⟨2, [[1], []]⟩ b a → a = b)) ∧
    (∀ a b, Graph.addEdge ⟨2, [[1], []]⟩ a b ≠ .error Fault.assertion →
      (∃ g', Graph.addEdge ⟨2, [[1], []]⟩ a b = .ok g' ∧
        Graph.build 2 ([(0, 1)] ++ [(a, b)]) = .ok g') ∨
      (a < 0 ∧ (Graph.addEdge ⟨2, [[1], []]⟩ a b = .error Fault.lengthError ∨
        Graph.addEdge ⟨2, [[1], []]⟩ a b = .error Fault.outOfBounds))) :=
  C19_graph_invariant 2 [(0, 1)] ⟨2, [[1], []]⟩ rfl

end Ministat
